import Mathlib

/-!
Verification of the configuration-documentation parser and renderer of
`dockertest/docdeps.py` (classes `DocItem`, `ConfigINIParser`, `DocBase`).

The Python code is shallowly embedded: lines are `List Char`, the mutable
parser-state dictionary becomes the explicit `PState` record, and every
Python operation that can raise is modelled in `Except String`.  Python 2
string semantics are used (byte strings; `str.strip` whitespace is
space, tab, newline, carriage return, vertical tab and form feed; the
`\w` character class of `cfgoptval_regex` is modelled as the ASCII word
characters, which is what the regex matches on the ASCII configuration
files the parser is applied to).
-/

set_option maxHeartbeats 1000000

instance {ε α : Type} [DecidableEq ε] [DecidableEq α] :
    DecidableEq (Except ε α) := fun a b =>
  match a, b with
  | .error x, .error y =>
    if h : x = y then .isTrue (by rw [h]) else .isFalse (by simp [h])
  | .ok x, .ok y =>
    if h : x = y then .isTrue (by rw [h]) else .isFalse (by simp [h])
  | .error _, .ok _ => .isFalse (fun h => Except.noConfusion h)
  | .ok _, .error _ => .isFalse (fun h => Except.noConfusion h)

/-- Python `str.isspace` characters (py2 byte-string whitespace). -/
def pyIsSpace (c : Char) : Bool :=
  c == ' ' || c == '\t' || c == '\n' || c == '\r' || c == '\x0b' || c == '\x0c'

/-- Python `str.rstrip()` on a line of characters. -/
def rstripChars (cs : List Char) : List Char :=
  (cs.reverse.dropWhile pyIsSpace).reverse

/-- Python `str.lstrip()`. -/
def lstripChars (cs : List Char) : List Char :=
  cs.dropWhile pyIsSpace

/-- Python `str.strip()`. -/
def stripChars (cs : List Char) : List Char :=
  lstripChars (rstripChars cs)

/-- Python `str.splitlines()` restricted to `\n` terminators (the only
terminator occurring in the repository's `.ini` inputs; a trailing
terminator does not open an extra empty line). -/
def splitOnNl : List Char → List (List Char)
  | [] => [[]]
  | c :: rest =>
    if c = '\n' then [] :: splitOnNl rest
    else
      match splitOnNl rest with
      | l :: ls => (c :: l) :: ls
      | [] => [[c]]

/-- Python `str.splitlines()`: empty string gives no lines. -/
def splitlinesChars (cs : List Char) : List (List Char) :=
  if cs.isEmpty then []
  else if cs.getLast? = some '\n' then (splitOnNl cs).dropLast
  else splitOnNl cs

/-- `DocItem.empty_value`: string used when filling in empty value items. -/
def empty_value : String := "<None>"

/-- `DocItem` (docdeps.py): read-only storage for one documented config
option.  The four namedtuple fields. -/
structure DocItem where
  subthing : String
  option : String
  desc : String
  value : String
deriving DecidableEq

/-- `DocItem.__new__`: constructing a `DocItem` normalizes an empty
`value` to the sentinel `empty_value`. -/
def mkDocItem (sub opt desc val : List Char) : DocItem :=
  { subthing := String.mk sub
    option := String.mk opt
    desc := String.mk desc
    value := if val = [] then empty_value else String.mk val }

/-- `ConfigINIParser.undoc_option_doc` as characters. -/
def undocChars : List Char := "Undocumented Option, please fix!".data

/-- The mutable accumulator dictionary of `ConfigINIParser`.  After
`reset_state` the dictionary holds the keys `subthing` and `desc` and
the keys `option`/`value` are deleted; `optval = none` models their
absence (they are always set together, by `parse_non_section`). -/
structure PState where
  subthing : Option (List Char)
  desc : List Char
  optval : Option (List Char × List Char)
deriving DecidableEq

/-- `ConfigINIParser.reset_state`: fresh incomplete state for a section. -/
def reset_state (sub : Option (List Char)) : PState :=
  { subthing := sub, desc := undocChars, optval := none }

/-- `ConfigINIParser.state_complete`: the state is complete when all four
dictionary entries are present and non-None (`desc` is always a string
and `option`/`value` are regex groups, hence non-None whenever present,
so completeness is exactly `subthing` set and `option`/`value` present).
As in the Python code, checking completeness strips `desc` in place. -/
def state_complete (st : PState) : Bool × PState :=
  if st.subthing.isSome && st.optval.isSome then
    (true, { st with desc := stripChars st.desc })
  else (false, st)

/-- `DocItem(**state)` on a complete state (the `getD` defaults are never
used on complete states, where both options are `some`). -/
def docItemOfState (st : PState) : DocItem :=
  mkDocItem (st.subthing.getD []) (st.optval.getD ([], [])).1
    st.desc (st.optval.getD ([], [])).2

/-- ASCII `\w` of `cfgoptval_regex`. -/
def isWordChar (c : Char) : Bool :=
  c.isAlphanum || c == '_'

/-- `ConfigINIParser.cfgoptval_regex.match(line)`:
`(\w+)\s*[=:]{1}\s*(.*)` anchored at the start of the line, returning the
two groups.  Greedy maximal-munch is equivalent to the backtracking
search here because word characters, whitespace and `=`/`:` are three
disjoint classes. -/
def cfgoptval_match (line : List Char) : Option (List Char × List Char) :=
  let w := line.takeWhile isWordChar
  if w.isEmpty then none
  else
    match (line.drop w.length).dropWhile pyIsSpace with
    | '=' :: rest => some (w, rest.dropWhile pyIsSpace)
    | ':' :: rest => some (w, rest.dropWhile pyIsSpace)
    | _ => none

/-- Field parsing of Python `str.format` after an opening brace: the
field name runs to `\x7d`, `:` or `!`; a conversion or format spec is
skipped up to the closing `\x7d` (nested braces in format specs are not
modelled; the repository's descriptions use none). -/
def skipSpec : List Char → Except String (List Char)
  | [] => .error "ValueError: unterminated format spec"
  | c :: r => if c = '}' then .ok r else skipSpec r

/-- Split one replacement field: returns the field name and the rest of
the string after the closing brace. -/
def splitField : List Char → Except String (List Char × List Char)
  | [] => .error "ValueError: single opening brace in format string"
  | c :: r =>
    if c = '}' then .ok ([], r)
    else if c = ':' || c = '!' then
      match skipSpec r with
      | .ok r4 => .ok ([], r4)
      | .error e => .error e
    else
      match splitField r with
      | .ok p => .ok (c :: p.1, p.2)
      | .error e => .error e

/-- The substitution mapping `ConfigINIParser.desc_fmt_map`
(`n` to newline, `t` to four spaces). -/
def descFmtLookup (name : List Char) : Option (List Char) :=
  if name = ['n'] then some ['\n']
  else if name = ['t'] then some [' ', ' ', ' ', ' ']
  else none

/-- Python `desc.format(**desc_fmt_map)`, structured on a fuel argument
so that the recursion is structural (`pyFormat` below always supplies
enough fuel, so the fuel-exhausted branch is unreachable): doubled
braces are literals, a replacement field is looked up in `desc_fmt_map`
(`KeyError` on any other name), and an unmatched brace is a
`ValueError`. -/
def pyFormatAux : Nat → List Char → Except String (List Char)
  | _, [] => .ok []
  | 0, _ => .error "format fuel exhausted"
  | n + 1, c :: rest =>
    if c = '{' then
      if rest.head? = some '{' then
        (pyFormatAux n rest.tail).map (fun t => '{' :: t)
      else
        match splitField rest with
        | .error e => .error e
        | .ok (name, r4) =>
          match descFmtLookup name with
          | some v => (pyFormatAux n r4).map (fun t => v ++ t)
          | none => .error ("KeyError: " ++ String.mk name)
    else if c = '}' then
      if rest.head? = some '}' then
        (pyFormatAux n rest.tail).map (fun t => '}' :: t)
      else .error "ValueError: single closing brace in format string"
    else (pyFormatAux n rest).map (fun t => c :: t)

/-- Python `desc.format(**desc_fmt_map)`. -/
def pyFormat (cs : List Char) : Except String (List Char) :=
  pyFormatAux cs.length cs

/-- The `DocItem(**state)` emitted when the state is complete
(`result` in `parse_line`/`parse_non_section`). -/
def emitted (st : PState) : Option DocItem :=
  if (state_complete st).1 then some (docItemOfState (state_complete st).2)
  else none

/-- `ConfigINIParser.parse_non_section`: an already-identified
non-section, non-doc-comment line is an option line, a value
continuation, or junk.  Never raises. -/
def parse_non_section (line : List Char) (st : PState) :
    Option DocItem × PState :=
  match cfgoptval_match line with
  | none =>
    if (state_complete st).1 && (line.take 3 == [' ', ' ', ' ']) then
      let newov := ((state_complete st).2).optval.map
        (fun p => (p.1, stripChars (p.2 ++ ' ' :: lstripChars line)))
      (none, { (state_complete st).2 with optval := newov })
    else if (state_complete st).1 then
      (some (docItemOfState (state_complete st).2), (state_complete st).2)
    else (none, (state_complete st).2)
  | some ov =>
    if (state_complete st).1 then
      (some (docItemOfState (state_complete st).2),
        { reset_state ((state_complete st).2).subthing with optval := some ov })
    else (none, { (state_complete st).2 with optval := some ov })

/-- The state after the flush step of the doc-comment branch of
`parse_line`: a complete state is reset to the same section, an
incomplete one is kept. -/
def doc_reset (st : PState) : PState :=
  if (state_complete st).1 then reset_state ((state_complete st).2).subthing
  else (state_complete st).2

/-- The description accumulated by the doc-comment branch of
`parse_line` before the `desc_fmt_map` substitution: a new option-doc
replaces the undocumented placeholder, a continuing one is
space-joined. -/
def newDesc (line : List Char) (st : PState) : List Char :=
  if (doc_reset st).desc = undocChars then stripChars (line.drop 2)
  else (doc_reset st).desc ++ ' ' :: stripChars (line.drop 2)

/-- `ConfigINIParser.parse_line`: one line of INI file against the
state; returns the completed `DocItem` to append (if any) and the next
state, or the exception raised by `str.format` on the description. -/
def parse_line (line : List Char) (st : PState) :
    Except String (Option DocItem × PState) :=
  if line.head? = some '[' ∧ line.getLast? = some ']' then
    .ok (emitted st, reset_state (some ((line.drop 1).dropLast)))
  else if line.take 2 = ['#', ':'] then
    match pyFormat (newDesc line st) with
    | .ok fdesc => .ok (emitted st, { doc_reset st with desc := fdesc })
    | .error e => .error e
  else .ok (parse_non_section line st)

/-- Key used by `DocItem.__hash__`/`__cmp__` and hence by
`ConfigINIParser._dedupe`: the `(subthing, option)` pair (the integer
hash applied to this tuple is injective up to the astronomically
unlikely hash collision, which the model ignores). -/
def dkey (d : DocItem) : String × String :=
  (d.subthing, d.option)

/-- One overwrite step of a Python dict keyed by `key`: a later item
with an existing key replaces it in place, otherwise it is appended. -/
def upsert {α K : Type} [DecidableEq K] (key : α → K) (acc : List α) (x : α) :
    List α :=
  if acc.any fun a => key a = key x then
    acc.map fun a => if key a = key x then x else a
  else acc ++ [x]

/-- Insertion-ordered overwriting of a Python dict by a list of items. -/
def upsertAll {α K : Type} [DecidableEq K] (key : α → K)
    (base : List α) (upd : List α) : List α :=
  upd.foldl (upsert key) base

/-- CPython 2 string hash, inner loop:
`x = (1000003 * x) ^ ord(c)` on the 64-bit machine word (the low bits,
which alone determine dict slots, agree with 32-bit builds; the parser
handles ASCII byte strings). -/
def py2StringHashAux : List Char → Nat → Nat
  | [], x => x
  | c :: rest, x => py2StringHashAux rest (((1000003 * x) % 2 ^ 64) ^^^ c.toNat)

/-- CPython 2 string hash: `x = ord(s[0]) << 7`, the multiply-xor loop
over all characters, then `x ^= len(s)`, with `-1` mapped to `-2`
(hash values are modelled by their unsigned 64-bit bit pattern). -/
def py2StringHash (s : String) : Nat :=
  match s.data with
  | [] => 0
  | c :: _ =>
    let x := (py2StringHashAux s.data ((c.toNat <<< 7) % 2 ^ 64)) ^^^ s.length
    if x = 2 ^ 64 - 1 then 2 ^ 64 - 2 else x

/-- CPython 2 tuple hash of a pair from the item hashes:
`x = 0x345678`, then `x = (x ^ y) * mult` with `mult` starting at
`1000003` and growing by `82520 + 2*len` per item, finally `+ 97531`
(for a pair the second multiplier is `1082525`). -/
def py2PairHash (a b : Nat) : Nat :=
  let x1 := ((0x345678 ^^^ a) * 1000003) % 2 ^ 64
  let x2 := ((x1 ^^^ b) * 1082525) % 2 ^ 64
  let x3 := (x2 + 97531) % 2 ^ 64
  if x3 = 2 ^ 64 - 1 then 2 ^ 64 - 2 else x3

/-- `DocItem.__hash__`: the CPython 2 hash of
`tuple([self.subthing, self.option])` — the integer `_dedupe` keys its
dict by. -/
def dkeyHash (d : DocItem) : Nat :=
  py2PairHash (py2StringHash d.subthing) (py2StringHash d.option)

/-- The open-addressing probe sequence of the CPython 2 dict:
`i = hash & mask`, then repeatedly `i = 5*i + perturb + 1` on the
64-bit word with `perturb` starting at the hash and shifting right five
bits per step; the probed slot is `i & mask`.  The fuel `size + 64`
covers the perturbation phase plus one full period of the
`i = 5*i + 1 (mod size)` cycle, which visits every slot, so the fuel
never runs out in reality. -/
def probeAux : Nat → Nat → Nat → Nat → List Nat
  | 0, _, _, _ => []
  | fuel + 1, i, perturb, size =>
    (i % size) :: probeAux fuel ((5 * i + perturb + 1) % 2 ^ 64) (perturb / 32) size

/-- Probe slots tried for a key, in order. -/
def probeSeq (h size : Nat) : List Nat :=
  probeAux (size + 64) (h % size) h size

/-- Slot acceptance in `lookdict`: an empty slot, or the entry stored
under the probed integer key. -/
def slotMatches (k : Nat) (t : List (Option DocItem)) (j : Nat) : Bool :=
  match t.getD j none with
  | none => true
  | some e => dkeyHash e = k

/-- The slot an insertion uses: the first accepted probe (with a
linear-scan fallback for exhausted fuel, unreachable while the table
has an empty slot since probing visits every slot). -/
def findSlot (t : List (Option DocItem)) (k : Nat) : Option Nat :=
  match (probeSeq k t.length).find? (slotMatches k t) with
  | some j => some j
  | none => (List.range t.length).find? (fun j => (t.getD j none).isNone)

/-- `insertdict`: store the entry at the slot its key probes to. -/
def insertSlot (t : List (Option DocItem)) (d : DocItem) : List (Option DocItem) :=
  match findSlot t (dkeyHash d) with
  | some j => t.set j (some d)
  | none => t

/-- `dictresize` size search: double from the minimum table size 8
until above `minused`. -/
def growSize (minused : Nat) : Nat → Nat → Nat
  | 0, cur => cur
  | fuel + 1, cur => if cur ≤ minused then growSize minused fuel (2 * cur) else cur

/-- `dictresize` target: the smallest power of two above `4 * used`. -/
def newSize (used : Nat) : Nat :=
  growSize (4 * used) (4 * used + 16) 8

/-- `dictresize`: re-insert the entries, in slot order, into a fresh
larger table. -/
def resizeTable (t : List (Option DocItem)) : List (Option DocItem) :=
  (t.filterMap id).foldl insertSlot
    (List.replicate (newSize (t.filterMap id).length) none)

/-- One `PyDict_SetItem` of a new key: place the entry, then resize
when the fill reaches two thirds of the table. -/
def py2Insert (t : List (Option DocItem)) (d : DocItem) : List (Option DocItem) :=
  if 3 * ((insertSlot t d).filterMap id).length ≥ 2 * (insertSlot t d).length
  then resizeTable (insertSlot t d)
  else insertSlot t d

/-- `tuple(dedupe_map.values())`: build the CPython 2 dict by inserting
the distinct keys in first-occurrence order (value overwrites do not
move entries or trigger resizes, so the dict structure is that of
inserting the deduplicated entries once each), then read the slots in
ascending order — hash-slot iteration order, not insertion order. -/
def py2DictValues (entries : List DocItem) : List DocItem :=
  (entries.foldl py2Insert (List.replicate 8 none)).filterMap id

/-- `ConfigINIParser._dedupe`: a dict keyed by the `__hash__` of each
item, each occurrence overwriting any prior duplicate, then
`tuple(values())` — the surviving values in hash-slot iteration
order. -/
def dedupe (docitems : List DocItem) : List DocItem :=
  py2DictValues (upsertAll dkeyHash [] docitems)

/-- The dict content keyed directly by the `(subthing, option)` pair,
in first-insertion order: equal to the hash-keyed dict content whenever
the hashes of the occurring pairs do not collide. -/
def dedupePairs (docitems : List DocItem) : List DocItem :=
  upsertAll dkey [] docitems

/-- The line loop of `ConfigINIParser._new__docitems`: right-strip each
line, feed it to `parse_line`, collect completed items. -/
def runLines : List (List Char) → List DocItem → PState →
    Except String (List DocItem × PState)
  | [], acc, st => .ok (acc, st)
  | l :: ls, acc, st =>
    match parse_line (rstripChars l) st with
    | .error e => .error e
    | .ok (none, st2) => runLines ls acc st2
    | .ok (some d, st2) => runLines ls (acc ++ [d]) st2

/-- `ConfigINIParser._new__docitems`: run all lines, flush a state left
complete at end of input, deduplicate. -/
def new_docitems (lines : List (List Char)) : Except String (List DocItem) :=
  match runLines lines [] (reset_state none) with
  | .error e => .error e
  | .ok (acc, st) =>
    .ok (dedupe (if (state_complete st).1 then
      acc ++ [docItemOfState (state_complete st).2] else acc))

/-- `ConfigINIParser.from_string`: split the string into lines and parse. -/
def from_string (s : String) : Except String (List DocItem) :=
  new_docitems (splitlinesChars s.data)

/-- Python dict lookup on an item list keyed by `key` (first match; the
lists produced by `upsertAll` have unique keys). -/
def findKey {α K : Type} [DecidableEq K] (key : α → K) (k : K) (l : List α) :
    Option α :=
  l.find? (fun a => key a = k)

/-- First occurrences of each element, in order, given already-seen ones. -/
def keepFirstsAux {α : Type} [DecidableEq α] (seen : List α) :
    List α → List α
  | [] => []
  | k :: ks =>
    if k ∈ seen then keepFirstsAux seen ks
    else k :: keepFirstsAux (k :: seen) ks

/-- First occurrences of each element of a list, in order: the key order
of a Python dict built by insertion with overwrites. -/
def keepFirsts {α : Type} [DecidableEq α] (l : List α) : List α :=
  keepFirstsAux [] l

/-- Python 2 `cmp` on byte strings (lexicographic). -/
def cmpChars : List Char → List Char → Ordering
  | [], [] => .eq
  | [], _ :: _ => .lt
  | _ :: _, [] => .gt
  | a :: as, b :: bs =>
    if a < b then .lt else if b < a then .gt else cmpChars as bs

/-- `DocItem.__cmp__`: tuple comparison of `(subthing, option)`,
ignoring `desc` and `value`. -/
def docItemCmp (a b : DocItem) : Ordering :=
  (cmpChars a.subthing.data b.subthing.data).then
    (cmpChars a.option.data b.option.data)

/-- `DocItem.__hash__` hashes `tuple([self.subthing, self.option])`:
the hash is a function of this key alone, so equal keys give equal
hashes.  We model the key the hash is computed from. -/
def docItemHashKey (d : DocItem) : String × String :=
  (d.subthing, d.option)

/-- A line (or description) free of `str.format` brace characters. -/
def noBrace (cs : List Char) : Prop :=
  '{' ∉ cs ∧ '}' ∉ cs

instance (cs : List Char) : Decidable (noBrace cs) := by
  unfold noBrace; infer_instance

/-- A character list with neither leading nor trailing Python
whitespace (the shape `str.strip()` guarantees). -/
def noEdgeSpace (cs : List Char) : Prop :=
  cs.head?.all (fun c => !(pyIsSpace c)) = true ∧
  cs.getLast?.all (fun c => !(pyIsSpace c)) = true

/-- Characters before the last occurrence of `c` (used for the header
group of the section regex, whose greedy `.+` backtracks to the last
closing bracket of the line). -/
def upToLast (c : Char) (cs : List Char) : List Char :=
  ((cs.reverse.dropWhile (fun x => x ≠ c)).drop 1).reverse

/-- Model of the stdlib `RawConfigParser` section recognition used by
`subthing_names` (an external collaborator of docdeps.py, cross-checking
section discovery only): a line whose stripped form starts with `[` and
contains a closing `]` declares the section named between `[` and the
last `]`. -/
def sectionOf (line : List Char) : Option String :=
  match stripChars line with
  | '[' :: rest =>
    if ']' ∈ rest then some (String.mk (upToLast ']' rest)) else none
  | _ => none

/-- Section names of an ini source in first-appearance order, duplicate
sections collapsed onto their first occurrence (`parser.sections()`). -/
def rawSections (lines : List (List Char)) : List String :=
  keepFirsts (lines.filterMap sectionOf)

/-- One step of the stable sort by decreasing length performed by
`subthing_names` (`sort(cmp on len, reverse=True)`: a stable descending
sort, so ties keep original file order). -/
def insertDescLen (x : String) : List String → List String
  | [] => [x]
  | y :: ys =>
    if x.length < y.length then y :: insertDescLen x ys
    else x :: y :: ys

/-- Stable insertion sort by decreasing string length. -/
def sortDescLen : List String → List String
  | [] => []
  | a :: l => insertDescLen a (sortDescLen l)

/-- `ConfigINIParser.subthing_names` (string-input variant): all section
names reverse-sorted by length; `IOError` when no sections are found. -/
def subthing_names (s : String) : Except String (List String) :=
  if (rawSections (splitlinesChars s.data)).isEmpty then
    .error ("No sections found in ini string: " ++ s)
  else .ok (sortDescLen (rawSections (splitlinesChars s.data)))

/-- `ConfigINIParser.subtest_name`: the single section with the shortest
name; `IOError` when two sections tie for the shortest length. -/
def subtest_name (s : String) : Except String String :=
  match subthing_names s with
  | .error e => .error e
  | .ok names =>
    if names.length = 1 then .ok (names.headD "")
    else if names.dropLast.any (fun n => n.length = (names.getLastD "").length) then
      .error ("Multiple subtest sections found in ini string: " ++ s)
    else .ok (names.getLastD "")

/-- `ConfigINIParser.subsub_names`: all sections other than
`subtest_name` (the Python code returns them as a `tuple(set(...))`,
i.e. with set semantics; the model keeps the filtered list and theorems
about it only use its membership). -/
def subsub_names (s : String) : Except String (List String) :=
  match subthing_names s with
  | .error e => .error e
  | .ok names =>
    if names.length = 1 then .ok []
    else
      match subtest_name s with
      | .error e => .error e
      | .ok sn => .ok (names.filter (fun n => n ≠ sn))

/-- `DocBase` (docdeps.py): abstract composer of output from a format
template plus substitution sources.  `sub_method` maps format keys to
methods called on the key; `sub_method_args` maps methods to argument
tuples (`none` calls with no arguments), each returning a `(key, value)`
pair. -/
structure DocBase where
  fmt : String
  sub_str : Option (List (String × String)) := none
  sub_method : Option (List (String × (String → String))) := none
  sub_method_args :
    Option (List (Option (List String) × (List String → String × String))) := none

/-- `DocBase.get_sub_method_dct`: key/method-name results. -/
def get_sub_method_dct (d : DocBase) : List (String × String) :=
  match d.sub_method with
  | none => []
  | some l => l.map (fun km => (km.1, km.2 km.1))

/-- `DocBase.get_sub_method_args_dct`: `(key, value)` pairs returned by
the methods. -/
def get_sub_method_args_dct (d : DocBase) : List (String × String) :=
  match d.sub_method_args with
  | none => []
  | some l => l.map (fun am => am.2 (am.1.getD []))

/-- Python dict lookup (value part). -/
def lookupDict (dct : List (String × String)) (k : String) : Option String :=
  (findKey Prod.fst k dct).map Prod.snd

/-- Value of the last pair of `l` with key `k`, if any: what a Python
dict built from `l` by insertion stores at `k`. -/
def lookupLast : List (String × String) → String → Option String
  | [], _ => none
  | kv :: l, k =>
    match lookupLast l k with
    | some v => some v
    | none => if kv.1 = k then some kv.2 else none

/-- The merged substitution dictionary of `DocBase.__str__`:
`dct = {}`, then `update(sub_str)`, `update(get_sub_method_dct())`,
`update(get_sub_method_args_dct())` (absent sources update nothing). -/
def mergedDct (d : DocBase) : List (String × String) :=
  upsertAll Prod.fst
    (upsertAll Prod.fst (upsertAll Prod.fst [] (d.sub_str.getD []))
      (get_sub_method_dct d))
    (get_sub_method_args_dct d)

/-- Parsing of a `%(name)s` replacement field after `%(`: the name up to
`)`, which must be followed by the `s` conversion (the only conversion
the DocBase templates use; others are modelled as the `ValueError`
Python raises for them on string values). -/
def pctField : List Char → Except String (List Char × List Char)
  | [] => .error "ValueError: incomplete format key"
  | c :: rest =>
    if c = ')' then
      match rest with
      | 's' :: r => .ok ([], r)
      | _ => .error "ValueError: unsupported format character"
    else
      match pctField rest with
      | .ok p => .ok (c :: p.1, p.2)
      | .error e => .error e

/-- Python `input_string % dct` for the named-key string templates of
`DocBase` (fuel-structured; `pyPercentSub` supplies enough fuel):
`%%` is a literal percent, `%(name)s` substitutes `dct[name]` and raises
`KeyError` when the name is absent from the mapping. -/
def pyPercentSubAux (dct : List (String × String)) :
    Nat → List Char → Except String (List Char)
  | _, [] => .ok []
  | 0, _ => .error "format fuel exhausted"
  | n + 1, c :: rest =>
    if c = '%' then
      match rest with
      | '%' :: rest2 =>
        match pyPercentSubAux dct n rest2 with
        | .ok t => .ok ('%' :: t)
        | .error e => .error e
      | '(' :: rest2 =>
        match pctField rest2 with
        | .error e => .error e
        | .ok (name, rest3) =>
          match lookupDict dct (String.mk name) with
          | none => .error ("KeyError: " ++ String.mk name)
          | some v =>
            match pyPercentSubAux dct n rest3 with
            | .ok t => .ok (v.data ++ t)
            | .error e => .error e
      | _ => .error "ValueError: unsupported format character"
    else
      match pyPercentSubAux dct n rest with
      | .ok t => .ok (c :: t)
      | .error e => .error e

/-- Python `input_string % dct` (see `pyPercentSubAux`). -/
def pyPercentSub (dct : List (String × String)) (cs : List Char) :
    Except String (List Char) :=
  pyPercentSubAux dct cs.length cs

/-- `DocBase.do_sub_str`: substitute, re-raising any exception with the
offending template appended (the Python message also appends the dict
repr, abbreviated here). -/
def do_sub_str (input_string : String) (dct : List (String × String)) :
    Except String String :=
  match pyPercentSub dct input_string.data with
  | .ok out => .ok (String.mk out)
  | .error e => .error (e ++ ": fmt=" ++ input_string)

/-- `DocBase.conv`: final output conversion, nothing by default. -/
def conv (input_string : String) : String :=
  input_string

/-- `DocBase.__str__`: merge the substitution sources, substitute into
the template when any substitutions exist, then `conv(...).strip()`. -/
def docbase_str (d : DocBase) : Except String String :=
  if (mergedDct d).isEmpty then .ok (String.mk (stripChars (conv d.fmt).data))
  else
    match do_sub_str d.fmt (mergedDct d) with
    | .ok out => .ok (String.mk (stripChars (conv out).data))
    | .error e => .error e

theorem findKey_nil {α K : Type} [DecidableEq K] (key : α → K) (k : K) :
    findKey key k [] = none := rfl

theorem findKey_cons {α K : Type} [DecidableEq K] (key : α → K) (k : K)
    (a : α) (l : List α) :
    findKey key k (a :: l) = if key a = k then some a else findKey key k l := by
  by_cases h : key a = k
  · rw [if_pos h]
    exact List.find?_cons_of_pos _ (by simp [h])
  · rw [if_neg h]
    exact List.find?_cons_of_neg _ (by simp [h])

theorem findKey_map_overwrite {α K : Type} [DecidableEq K] (key : α → K)
    (x : α) (k : K) (hk : k ≠ key x) (acc : List α) :
    findKey key k (acc.map fun a => if key a = key x then x else a) =
      findKey key k acc := by
  induction acc with
  | nil => rfl
  | cons a l ih =>
    by_cases ha : key a = key x
    · simp only [List.map_cons, if_pos ha]
      rw [findKey_cons, findKey_cons]
      rw [if_neg (fun h => hk h.symm), if_neg (fun h => hk (ha.symm.trans h).symm)]
      exact ih
    · simp only [List.map_cons, if_neg ha]
      rw [findKey_cons, findKey_cons]
      by_cases h : key a = k
      · rw [if_pos h, if_pos h]
      · rw [if_neg h, if_neg h]
        exact ih

theorem findKey_map_overwrite_self {α K : Type} [DecidableEq K] (key : α → K)
    (x : α) (acc : List α) (h : ∃ a ∈ acc, key a = key x) :
    findKey key (key x) (acc.map fun a => if key a = key x then x else a) =
      some x := by
  induction acc with
  | nil => simp at h
  | cons a l ih =>
    by_cases ha : key a = key x
    · simp only [List.map_cons, if_pos ha]
      rw [findKey_cons, if_pos rfl]
    · simp only [List.map_cons, if_neg ha]
      rw [findKey_cons, if_neg ha]
      apply ih
      rcases h with ⟨b, hb, hkb⟩
      rcases List.mem_cons.mp hb with rfl | hbl
      · exact absurd hkb ha
      · exact ⟨b, hbl, hkb⟩

theorem findKey_concat {α K : Type} [DecidableEq K] (key : α → K) (k : K)
    (acc : List α) (x : α) :
    findKey key k (acc ++ [x]) =
      match findKey key k acc with
      | some a => some a
      | none => if key x = k then some x else none := by
  induction acc with
  | nil =>
    simp only [List.nil_append, findKey_nil]
    rw [findKey_cons, findKey_nil]
  | cons a l ih =>
    simp only [List.cons_append]
    rw [findKey_cons, findKey_cons]
    by_cases h : key a = k
    · rw [if_pos h, if_pos h]
    · rw [if_neg h, if_neg h, ih]

theorem findKey_eq_none_of_not_any {α K : Type} [DecidableEq K]
    (key : α → K) (acc : List α) (x : α)
    (hany : ¬ (acc.any fun a => key a = key x) = true) :
    findKey key (key x) acc = none := by
  rw [findKey, List.find?_eq_none]
  intro a ha
  simp only [decide_eq_true_eq]
  intro hEq
  exact hany (by simp only [List.any_eq_true, decide_eq_true_eq]; exact ⟨a, ha, hEq⟩)

theorem findKey_upsert {α K : Type} [DecidableEq K] (key : α → K)
    (acc : List α) (x : α) (k : K) :
    findKey key k (upsert key acc x) =
      if k = key x then some x else findKey key k acc := by
  unfold upsert
  by_cases hany : (acc.any fun a => key a = key x) = true
  · rw [if_pos hany]
    by_cases hk : k = key x
    · subst hk
      rw [if_pos rfl]
      apply findKey_map_overwrite_self
      simpa only [List.any_eq_true, decide_eq_true_eq] using hany
    · rw [if_neg hk]
      exact findKey_map_overwrite key x k hk acc
  · rw [if_neg hany, findKey_concat]
    by_cases hk : k = key x
    · subst hk
      rw [findKey_eq_none_of_not_any key acc x hany]
    · rw [if_neg hk]
      cases hf : findKey key k acc with
      | none => simp only [hf]; rw [if_neg (fun h => hk h.symm)]
      | some a => simp only [hf]

theorem map_key_upsert {α K : Type} [DecidableEq K] (key : α → K)
    (acc : List α) (x : α) :
    (upsert key acc x).map key =
      if key x ∈ acc.map key then acc.map key else acc.map key ++ [key x] := by
  unfold upsert
  by_cases hany : (acc.any fun a => key a = key x) = true
  · have hmem : key x ∈ acc.map key := by
      simp only [List.any_eq_true, decide_eq_true_eq] at hany
      rcases hany with ⟨a, ha, hk⟩
      exact hk ▸ List.mem_map_of_mem key ha
    rw [if_pos hany, if_pos hmem, List.map_map]
    refine List.map_congr_left ?_
    intro a _
    by_cases h : key a = key x
    · simp [h]
    · simp [h]
  · have hmem : key x ∉ acc.map key := by
      intro hmem
      apply hany
      simp only [List.any_eq_true, decide_eq_true_eq]
      rcases List.mem_map.mp hmem with ⟨a, ha, hk⟩
      exact ⟨a, ha, hk⟩
    rw [if_neg hany, if_neg hmem]
    simp

theorem mem_upsert {α K : Type} [DecidableEq K] (key : α → K)
    (acc : List α) (x d : α) (h : d ∈ upsert key acc x) : d ∈ acc ∨ d = x := by
  unfold upsert at h
  by_cases hany : (acc.any fun a => key a = key x) = true
  · rw [if_pos hany] at h
    rcases List.mem_map.mp h with ⟨a, ha, hEq⟩
    by_cases hk : key a = key x
    · right; rw [if_pos hk] at hEq; exact hEq.symm
    · left; rw [if_neg hk] at hEq; exact hEq ▸ ha
  · rw [if_neg hany] at h
    rcases List.mem_append.mp h with h | h
    · left; exact h
    · right; simpa using h

theorem keepFirstsAux_mem {α : Type} [DecidableEq α] (l : List α) :
    ∀ (seen : List α) (k : α),
      k ∈ keepFirstsAux seen l ↔ k ∈ l ∧ k ∉ seen := by
  induction l with
  | nil => intro seen k; simp [keepFirstsAux]
  | cons a l ih =>
    intro seen k
    unfold keepFirstsAux
    by_cases ha : a ∈ seen
    · rw [if_pos ha, ih]
      constructor
      · rintro ⟨h1, h2⟩
        exact ⟨List.mem_cons_of_mem a h1, h2⟩
      · rintro ⟨h1, h2⟩
        rcases List.mem_cons.mp h1 with rfl | h1
        · exact absurd ha h2
        · exact ⟨h1, h2⟩
    · rw [if_neg ha]
      constructor
      · intro h
        rcases List.mem_cons.mp h with rfl | h
        · exact ⟨List.mem_cons_self _ _, ha⟩
        · rw [ih] at h
          refine ⟨List.mem_cons_of_mem a h.1, fun hs => h.2 (List.mem_cons_of_mem a hs)⟩
      · rintro ⟨h1, h2⟩
        by_cases hk : k = a
        · exact hk ▸ List.mem_cons_self _ _
        · apply List.mem_cons_of_mem
          rw [ih]
          rcases List.mem_cons.mp h1 with rfl | h1
          · exact absurd rfl hk
          · refine ⟨h1, fun hs => ?_⟩
            rcases List.mem_cons.mp hs with rfl | hs
            · exact hk rfl
            · exact h2 hs

theorem keepFirstsAux_nodup {α : Type} [DecidableEq α] (l : List α) :
    ∀ seen : List α, (keepFirstsAux seen l).Nodup := by
  induction l with
  | nil => intro seen; simp [keepFirstsAux]
  | cons a l ih =>
    intro seen
    unfold keepFirstsAux
    by_cases ha : a ∈ seen
    · rw [if_pos ha]; exact ih seen
    · rw [if_neg ha]
      rw [List.nodup_cons]
      refine ⟨fun hmem => ?_, ih (a :: seen)⟩
      rw [keepFirstsAux_mem] at hmem
      exact hmem.2 (List.mem_cons_self a seen)

theorem keepFirstsAux_concat {α : Type} [DecidableEq α] (l : List α) (k : α) :
    ∀ seen : List α,
      keepFirstsAux seen (l ++ [k]) =
        keepFirstsAux seen l ++ (if k ∈ seen ∨ k ∈ l then [] else [k]) := by
  induction l with
  | nil =>
    intro seen
    simp only [List.nil_append, keepFirstsAux]
    by_cases hk : k ∈ seen
    · rw [if_pos hk, if_pos (Or.inl hk)]
    · rw [if_neg hk, if_neg (by simp [hk])]
  | cons a l ih =>
    intro seen
    simp only [List.cons_append]
    unfold keepFirstsAux
    by_cases ha : a ∈ seen
    · rw [if_pos ha, if_pos ha, ih seen]
      congr 1
      by_cases hk1 : k ∈ seen ∨ k ∈ l
      · rw [if_pos hk1, if_pos (by rcases hk1 with h | h; exact Or.inl h; exact Or.inr (List.mem_cons_of_mem a h))]
      · rw [if_neg hk1]
        rw [if_neg ?_]
        rintro (h | h)
        · exact hk1 (Or.inl h)
        · rcases List.mem_cons.mp h with rfl | h
          · exact hk1 (Or.inl ha)
          · exact hk1 (Or.inr h)
    · rw [if_neg ha, if_neg ha, ih (a :: seen)]
      rw [List.cons_append]
      congr 2
      by_cases hk1 : k ∈ a :: seen ∨ k ∈ l
      · rw [if_pos hk1]
        rw [if_pos ?_]
        rcases hk1 with h | h
        · rcases List.mem_cons.mp h with rfl | h
          · exact Or.inr (List.mem_cons_self _ _)
          · exact Or.inl h
        · exact Or.inr (List.mem_cons_of_mem a h)
      · rw [if_neg hk1]
        rw [if_neg ?_]
        rintro (h | h)
        · exact hk1 (Or.inl (List.mem_cons_of_mem a h))
        · rcases List.mem_cons.mp h with rfl | h
          · exact hk1 (Or.inl (List.mem_cons_self _ _))
          · exact hk1 (Or.inr h)

theorem keepFirsts_mem {α : Type} [DecidableEq α] (l : List α) (k : α) :
    k ∈ keepFirsts l ↔ k ∈ l := by
  rw [keepFirsts, keepFirstsAux_mem]
  simp

theorem keepFirsts_concat {α : Type} [DecidableEq α] (l : List α) (k : α) :
    keepFirsts (l ++ [k]) = keepFirsts l ++ (if k ∈ l then [] else [k]) := by
  unfold keepFirsts
  rw [keepFirstsAux_concat]
  congr 1
  simp

theorem upsertAll_concat {α K : Type} [DecidableEq K] (key : α → K)
    (b l : List α) (x : α) :
    upsertAll key b (l ++ [x]) = upsert key (upsertAll key b l) x := by
  simp [upsertAll, List.foldl_append]

theorem upsertAll_nil_map_key {α K : Type} [DecidableEq K] (key : α → K)
    (items : List α) :
    (upsertAll key [] items).map key = keepFirsts (items.map key) := by
  induction items using List.reverseRecOn with
  | nil => rfl
  | append_singleton l x ih =>
    rw [upsertAll_concat, map_key_upsert, List.map_append, List.map_singleton,
      keepFirsts_concat, ih]
    by_cases hmem : key x ∈ List.map key l
    · rw [if_pos ((keepFirsts_mem _ _).mpr hmem), if_pos hmem]
      simp
    · rw [if_neg (fun h => hmem ((keepFirsts_mem _ _).mp h)), if_neg hmem]

theorem upsertAll_nil_find {α K : Type} [DecidableEq K] (key : α → K)
    (items : List α) (k : K) :
    findKey key k (upsertAll key [] items) = findKey key k items.reverse := by
  induction items using List.reverseRecOn with
  | nil => rfl
  | append_singleton l x ih =>
    rw [upsertAll_concat, findKey_upsert, List.reverse_append]
    simp only [List.reverse_singleton, List.singleton_append]
    rw [findKey_cons]
    by_cases hk : k = key x
    · rw [if_pos hk, if_pos hk.symm]
    · rw [if_neg hk, if_neg (fun h => hk h.symm), ih]

theorem mem_upsertAll_nil {α K : Type} [DecidableEq K] (key : α → K)
    (items : List α) (d : α) (h : d ∈ upsertAll key [] items) : d ∈ items := by
  induction items using List.reverseRecOn with
  | nil => exact absurd h (List.not_mem_nil d)
  | append_singleton l x ih =>
    rw [upsertAll_concat] at h
    rcases mem_upsert key (upsertAll key [] l) x d h with h1 | h1
    · exact List.mem_append_left _ (ih h1)
    · subst h1
      exact List.mem_append_right _ (List.mem_singleton_self d)

theorem findKey_self {α K : Type} [DecidableEq K] (key : α → K) (l : List α)
    (d : α) (hnd : (l.map key).Nodup) (hd : d ∈ l) :
    findKey key (key d) l = some d := by
  induction l with
  | nil => simp at hd
  | cons a l ih =>
    rw [findKey_cons]
    rcases List.mem_cons.mp hd with rfl | hd2
    · rw [if_pos rfl]
    · by_cases hk : key a = key d
      · exfalso
        rw [List.map_cons, List.nodup_cons] at hnd
        exact hnd.1 (by rw [hk]; exact List.mem_map_of_mem key hd2)
      · rw [if_neg hk]
        apply ih
        · rw [List.map_cons, List.nodup_cons] at hnd
          exact hnd.2
        · exact hd2

theorem dkey_congr_hash {a b : DocItem} (h : dkey a = dkey b) :
    dkeyHash a = dkeyHash b := by
  unfold dkey at h
  rw [Prod.mk.injEq] at h
  unfold dkeyHash
  rw [h.1, h.2]

theorem upsert_key_agree (M : List DocItem) (x : DocItem)
    (hagr : ∀ a ∈ M, (dkeyHash a = dkeyHash x ↔ dkey a = dkey x)) :
    upsert dkeyHash M x = upsert dkey M x := by
  unfold upsert
  by_cases hex : ∃ a ∈ M, dkey a = dkey x
  · have e1 : (M.any fun a => dkeyHash a = dkeyHash x) = true := by
      simp only [List.any_eq_true, decide_eq_true_eq]
      rcases hex with ⟨a, ha, hk⟩
      exact ⟨a, ha, (hagr a ha).mpr hk⟩
    have e2 : (M.any fun a => dkey a = dkey x) = true := by
      simp only [List.any_eq_true, decide_eq_true_eq]
      exact hex
    rw [if_pos e1, if_pos e2]
    refine List.map_congr_left ?_
    intro a ha
    by_cases hk : dkey a = dkey x
    · rw [if_pos ((hagr a ha).mpr hk), if_pos hk]
    · rw [if_neg (fun hh => hk ((hagr a ha).mp hh)), if_neg hk]
  · have e1 : ¬(M.any fun a => dkeyHash a = dkeyHash x) = true := by
      simp only [List.any_eq_true, decide_eq_true_eq]
      rintro ⟨a, ha, hk⟩
      exact hex ⟨a, ha, (hagr a ha).mp hk⟩
    have e2 : ¬(M.any fun a => dkey a = dkey x) = true := by
      simp only [List.any_eq_true, decide_eq_true_eq]
      exact hex
    rw [if_neg e1, if_neg e2]

theorem upsertAll_hash_eq_pairs (items : List DocItem) :
    (∀ x ∈ items, ∀ y ∈ items, dkeyHash x = dkeyHash y → dkey x = dkey y) →
    upsertAll dkeyHash [] items = dedupePairs items := by
  induction items using List.reverseRecOn with
  | nil =>
    intro _
    have h1 : upsertAll dkeyHash [] ([] : List DocItem) = [] := rfl
    have h2 : dedupePairs [] = [] := rfl
    rw [h1, h2]
  | append_singleton l x ih =>
    intro hinj
    have hinj2 : ∀ a ∈ l, ∀ b ∈ l, dkeyHash a = dkeyHash b → dkey a = dkey b :=
      fun a ha b hb => hinj a (List.mem_append_left _ ha) b (List.mem_append_left _ hb)
    unfold dedupePairs
    rw [upsertAll_concat, upsertAll_concat, ih hinj2]
    apply upsert_key_agree
    intro a ha
    have hal : a ∈ l := mem_upsertAll_nil dkey l a ha
    constructor
    · intro hh
      exact hinj a (List.mem_append_left _ hal)
        x (List.mem_append_right _ (List.mem_singleton_self x)) hh
    · exact dkey_congr_hash

theorem replicate_none_values (n : Nat) :
    (List.replicate n (none : Option DocItem)).filterMap id = [] := by
  induction n with
  | zero => rfl
  | succ n ih => simp [List.replicate_succ, ih]

theorem exists_empty_slot (t : List (Option DocItem))
    (h : (t.filterMap id).length < t.length) :
    ∃ j, j < t.length ∧ t.getD j none = none := by
  induction t with
  | nil => simp at h
  | cons a t ih =>
    cases a with
    | none => exact ⟨0, by simp, rfl⟩
    | some x =>
      have h2 : (t.filterMap id).length < t.length := by
        simp only [List.filterMap_cons, id, List.length_cons] at h
        simpa using h
      obtain ⟨j, hj, hE⟩ := ih h2
      refine ⟨j + 1, by simp; omega, ?_⟩
      simpa [List.getD_cons_succ] using hE

theorem probe_mem_lt (fuel : Nat) :
    ∀ (i perturb size : Nat), 0 < size →
      ∀ j ∈ probeAux fuel i perturb size, j < size := by
  induction fuel with
  | zero => intro i perturb size _ j hj; simp [probeAux] at hj
  | succ fuel ih =>
    intro i perturb size hs j hj
    unfold probeAux at hj
    rcases List.mem_cons.mp hj with rfl | hj
    · exact Nat.mod_lt _ hs
    · exact ih _ _ _ hs j hj

theorem getD_eq_some_mem {t : List (Option DocItem)} {j : Nat} {e : DocItem}
    (h : t.getD j none = some e) : e ∈ t.filterMap id := by
  induction t generalizing j with
  | nil => simp [List.getD] at h
  | cons a t ih =>
    cases j with
    | zero =>
      rw [List.getD_cons_zero] at h
      subst h
      simp
    | succ j =>
      rw [List.getD_cons_succ] at h
      have := ih h
      cases a with
      | none => simpa using this
      | some x => simp [this]

theorem findSlot_empty (t : List (Option DocItem)) (k : Nat)
    (hnk : ∀ e ∈ t.filterMap id, dkeyHash e ≠ k)
    (hsp : (t.filterMap id).length < t.length) :
    ∃ j, findSlot t k = some j ∧ j < t.length ∧ t.getD j none = none := by
  have hpos : 0 < t.length := by
    rcases exists_empty_slot t hsp with ⟨j, hj, _⟩
    omega
  unfold findSlot
  cases hfp : (probeSeq k t.length).find? (slotMatches k t) with
  | some j =>
    have hmem := List.mem_of_find?_eq_some hfp
    have hmatch := List.find?_some hfp
    refine ⟨j, rfl, probe_mem_lt _ _ _ _ hpos j hmem, ?_⟩
    unfold slotMatches at hmatch
    cases hg : t.getD j none with
    | none => rfl
    | some e =>
      rw [hg] at hmatch
      simp only [decide_eq_true_eq] at hmatch
      exact absurd hmatch (hnk e (getD_eq_some_mem hg))
  | none =>
    rcases exists_empty_slot t hsp with ⟨j0, hj0, hE0⟩
    cases hlin : (List.range t.length).find? (fun j => (t.getD j none).isNone) with
    | none =>
      exfalso
      have := List.find?_eq_none.mp hlin j0 (List.mem_range.mpr hj0)
      rw [List.getD_eq_getElem?_getD] at hE0
      simp [hE0] at this
    | some j =>
      have hmem := List.mem_of_find?_eq_some hlin
      have hmatch := List.find?_some hlin
      refine ⟨j, rfl, List.mem_range.mp hmem, ?_⟩
      simpa [Option.isNone_iff_eq_none] using hmatch

theorem values_set_empty (t : List (Option DocItem)) :
    ∀ (j : Nat) (d : DocItem), j < t.length → t.getD j none = none →
      ((t.set j (some d)).filterMap id).Perm (d :: t.filterMap id) := by
  induction t with
  | nil => intro j d hj _; simp at hj
  | cons a t ih =>
    intro j d hj hE
    cases j with
    | zero =>
      rw [List.getD_cons_zero] at hE
      subst hE
      simp only [List.set_cons_zero, List.filterMap_cons, id]
      exact List.Perm.refl _
    | succ j =>
      rw [List.getD_cons_succ] at hE
      have hj2 : j < t.length := by simpa using hj
      have hperm := ih j d hj2 hE
      rw [List.set_cons_succ]
      cases a with
      | none => simpa using hperm
      | some x =>
        simp only [List.filterMap_cons, id]
        exact (hperm.cons x).trans (List.Perm.swap d x _)

theorem insertSlot_spec (t : List (Option DocItem)) (d : DocItem)
    (hnk : ∀ x ∈ t.filterMap id, dkeyHash x ≠ dkeyHash d)
    (hsp : (t.filterMap id).length < t.length) :
    ((insertSlot t d).filterMap id).Perm (d :: t.filterMap id) ∧
    (insertSlot t d).length = t.length := by
  obtain ⟨j, hfs, hj, hE⟩ := findSlot_empty t (dkeyHash d) hnk hsp
  unfold insertSlot
  rw [hfs]
  exact ⟨values_set_empty t j d hj hE, List.length_set t j (some d)⟩

theorem foldl_insertSlot_spec (entries : List DocItem) :
    ∀ t : List (Option DocItem),
      (entries.map dkeyHash).Nodup →
      (∀ e ∈ entries, ∀ x ∈ t.filterMap id, dkeyHash x ≠ dkeyHash e) →
      (t.filterMap id).length + entries.length ≤ t.length →
      ((entries.foldl insertSlot t).filterMap id).Perm (t.filterMap id ++ entries) ∧
      (entries.foldl insertSlot t).length = t.length := by
  induction entries with
  | nil =>
    intro t _ _ _
    exact ⟨by simp, rfl⟩
  | cons e es ih =>
    intro t hnd hsep hsp
    have hne : ∀ x ∈ t.filterMap id, dkeyHash x ≠ dkeyHash e :=
      fun x hx => hsep e (List.mem_cons_self _ _) x hx
    have hsp1 : (t.filterMap id).length < t.length := by
      simp only [List.length_cons] at hsp
      omega
    obtain ⟨hperm1, hlen1⟩ := insertSlot_spec t e hne hsp1
    have hfill1 : ((insertSlot t e).filterMap id).length =
        (t.filterMap id).length + 1 := by
      rw [hperm1.length_eq]
      simp
    have hndc : dkeyHash e ∉ es.map dkeyHash ∧ (es.map dkeyHash).Nodup := by
      rw [List.map_cons, List.nodup_cons] at hnd
      exact hnd
    have hsep2 : ∀ e2 ∈ es, ∀ x ∈ (insertSlot t e).filterMap id,
        dkeyHash x ≠ dkeyHash e2 := by
      intro e2 he2 x hx
      rcases List.mem_cons.mp (hperm1.mem_iff.mp hx) with rfl | hx3
      · intro hEq
        exact hndc.1 (by rw [hEq]; exact List.mem_map_of_mem _ he2)
      · exact hsep e2 (List.mem_cons_of_mem _ he2) x hx3
    have hsp2 : ((insertSlot t e).filterMap id).length + es.length ≤
        (insertSlot t e).length := by
      rw [hfill1, hlen1]
      simp only [List.length_cons] at hsp
      omega
    obtain ⟨hperm2, hlen2⟩ := ih (insertSlot t e) hndc.2 hsep2 hsp2
    rw [List.foldl_cons]
    constructor
    · refine hperm2.trans ?_
      refine (hperm1.append_right es).trans ?_
      simp only [List.cons_append]
      exact List.perm_middle.symm
    · rw [hlen2, hlen1]

theorem growSize_ge_start (minused : Nat) :
    ∀ (fuel cur : Nat), cur ≤ growSize minused fuel cur := by
  intro fuel
  induction fuel with
  | zero => intro cur; exact le_rfl
  | succ fuel ih =>
    intro cur
    unfold growSize
    by_cases h : cur ≤ minused
    · rw [if_pos h]
      exact le_trans (by omega) (ih (2 * cur))
    · rw [if_neg h]

theorem growSize_gt (minused : Nat) :
    ∀ (fuel cur : Nat), 1 ≤ cur → minused < cur + fuel →
      minused < growSize minused fuel cur := by
  intro fuel
  induction fuel with
  | zero =>
    intro cur h1 h2
    unfold growSize
    omega
  | succ fuel ih =>
    intro cur h1 h2
    unfold growSize
    by_cases h : cur ≤ minused
    · rw [if_pos h]
      exact ih (2 * cur) (by omega) (by omega)
    · rw [if_neg h]
      omega

theorem newSize_gt (used : Nat) : 4 * used < newSize used :=
  growSize_gt (4 * used) (4 * used + 16) 8 (by omega) (by omega)

theorem newSize_ge8 (used : Nat) : 8 ≤ newSize used :=
  growSize_ge_start (4 * used) (4 * used + 16) 8

theorem resizeTable_spec (t : List (Option DocItem))
    (hnd : ((t.filterMap id).map dkeyHash).Nodup) :
    ((resizeTable t).filterMap id).Perm (t.filterMap id) ∧
    ((resizeTable t).filterMap id).length < (resizeTable t).length ∧
    8 ≤ (resizeTable t).length := by
  unfold resizeTable
  have hgt := newSize_gt (t.filterMap id).length
  obtain ⟨hperm, hlen⟩ := foldl_insertSlot_spec (t.filterMap id)
    (List.replicate (newSize (t.filterMap id).length) none) hnd
    (by intro e _ x hx; rw [replicate_none_values] at hx; simp at hx)
    (by rw [replicate_none_values]
        simp only [List.length_nil, List.length_replicate]
        omega)
  rw [replicate_none_values] at hperm
  simp only [List.nil_append] at hperm
  refine ⟨hperm, ?_, ?_⟩
  · rw [hperm.length_eq, hlen, List.length_replicate]
    omega
  · rw [hlen, List.length_replicate]
    exact newSize_ge8 _

theorem py2Insert_spec (t : List (Option DocItem)) (d : DocItem)
    (hnk : ∀ x ∈ t.filterMap id, dkeyHash x ≠ dkeyHash d)
    (hnd : ((t.filterMap id).map dkeyHash).Nodup)
    (hsp : (t.filterMap id).length < t.length)
    (h8 : 8 ≤ t.length) :
    ((py2Insert t d).filterMap id).Perm (d :: t.filterMap id) ∧
    ((py2Insert t d).filterMap id).length < (py2Insert t d).length ∧
    8 ≤ (py2Insert t d).length := by
  obtain ⟨hperm1, hlen1⟩ := insertSlot_spec t d hnk hsp
  have hnd2 : (((insertSlot t d).filterMap id).map dkeyHash).Nodup := by
    refine ((hperm1.map dkeyHash).symm).nodup ?_
    rw [List.map_cons, List.nodup_cons]
    constructor
    · intro hmem
      rcases List.mem_map.mp hmem with ⟨x, hx, hxe⟩
      exact hnk x hx hxe
    · exact hnd
  unfold py2Insert
  by_cases hcond : 3 * ((insertSlot t d).filterMap id).length ≥
      2 * (insertSlot t d).length
  · rw [if_pos hcond]
    obtain ⟨hp2, hs2, h82⟩ := resizeTable_spec (insertSlot t d) hnd2
    exact ⟨hp2.trans hperm1, hs2, h82⟩
  · rw [if_neg hcond]
    refine ⟨hperm1, ?_, by rw [hlen1]; exact h8⟩
    omega

theorem foldl_py2Insert_spec (entries : List DocItem) :
    ∀ t : List (Option DocItem),
      (entries.map dkeyHash).Nodup →
      (∀ e ∈ entries, ∀ x ∈ t.filterMap id, dkeyHash x ≠ dkeyHash e) →
      ((t.filterMap id).map dkeyHash).Nodup →
      (t.filterMap id).length < t.length →
      8 ≤ t.length →
      ((entries.foldl py2Insert t).filterMap id).Perm (t.filterMap id ++ entries) := by
  induction entries with
  | nil =>
    intro t _ _ _ _ _
    simp
  | cons e es ih =>
    intro t hnd hsep hvnd hsp h8
    have hne : ∀ x ∈ t.filterMap id, dkeyHash x ≠ dkeyHash e :=
      fun x hx => hsep e (List.mem_cons_self _ _) x hx
    obtain ⟨hp1, hs1, h81⟩ := py2Insert_spec t e hne hvnd hsp h8
    have hndc : dkeyHash e ∉ es.map dkeyHash ∧ (es.map dkeyHash).Nodup := by
      rw [List.map_cons, List.nodup_cons] at hnd
      exact hnd
    have hsep2 : ∀ e2 ∈ es, ∀ x ∈ (py2Insert t e).filterMap id,
        dkeyHash x ≠ dkeyHash e2 := by
      intro e2 he2 x hx
      rcases List.mem_cons.mp (hp1.mem_iff.mp hx) with rfl | hx3
      · intro hEq
        exact hndc.1 (by rw [hEq]; exact List.mem_map_of_mem _ he2)
      · exact hsep e2 (List.mem_cons_of_mem _ he2) x hx3
    have hvnd2 : (((py2Insert t e).filterMap id).map dkeyHash).Nodup := by
      refine ((hp1.map dkeyHash).symm).nodup ?_
      rw [List.map_cons, List.nodup_cons]
      constructor
      · intro hmem
        rcases List.mem_map.mp hmem with ⟨x, hx, hxe⟩
        exact hne x hx hxe
      · exact hvnd
    rw [List.foldl_cons]
    refine (ih (py2Insert t e) hndc.2 hsep2 hvnd2 hs1 h81).trans ?_
    refine (hp1.append_right es).trans ?_
    simp only [List.cons_append]
    exact List.perm_middle.symm

theorem py2DictValues_perm (entries : List DocItem)
    (hnd : (entries.map dkeyHash).Nodup) :
    (py2DictValues entries).Perm entries := by
  unfold py2DictValues
  have h := foldl_py2Insert_spec entries (List.replicate 8 none) hnd
    (by intro e _ x hx; rw [replicate_none_values] at hx; simp at hx)
    (by rw [replicate_none_values]; simp)
    (by rw [replicate_none_values]; simp)
    (by simp)
  rw [replicate_none_values] at h
  simpa using h

theorem dedupe_perm_mapping (items : List DocItem) :
    (dedupe items).Perm (upsertAll dkeyHash [] items) := by
  unfold dedupe
  apply py2DictValues_perm
  rw [upsertAll_nil_map_key]
  exact keepFirstsAux_nodup _ []

theorem mem_dedupe (items : List DocItem) (d : DocItem) (h : d ∈ dedupe items) :
    d ∈ items :=
  mem_upsertAll_nil dkeyHash items d ((dedupe_perm_mapping items).mem_iff.mp h)

/-- C2 counterexample: the surviving items do not, in general, appear
in first-insertion order.  On `[mytest]` / `bar=` / `foo=1` the parser
emits the bar item and then the foo item, but the final tuple is
(foo, bar): `tuple(dedupe_map.values())` reads the CPython 2 dict in
hash-slot order (the keys hash to slots 2 and 7 of the 8-slot table),
not in insertion order. -/
theorem dedupe_not_first_insertion_order :
    from_string "[mytest]\nbar=\nfoo=1" =
      .ok [{ subthing := "mytest", option := "foo",
             desc := "Undocumented Option, please fix!", value := "1" },
           { subthing := "mytest", option := "bar",
             desc := "Undocumented Option, please fix!", value := "<None>" }] ∧
    dedupe
        [{ subthing := "mytest", option := "bar",
           desc := "Undocumented Option, please fix!", value := "<None>" },
         { subthing := "mytest", option := "foo",
           desc := "Undocumented Option, please fix!", value := "1" }] =
      [{ subthing := "mytest", option := "foo",
         desc := "Undocumented Option, please fix!", value := "1" },
       { subthing := "mytest", option := "bar",
         desc := "Undocumented Option, please fix!", value := "<None>" }] ∧
    (dedupe
        [{ subthing := "mytest", option := "bar",
           desc := "Undocumented Option, please fix!", value := "<None>" },
         { subthing := "mytest", option := "foo",
           desc := "Undocumented Option, please fix!", value := "1" }]).map dkey ≠
      keepFirsts
        (([{ subthing := "mytest", option := "bar",
             desc := "Undocumented Option, please fix!", value := "<None>" },
           { subthing := "mytest", option := "foo",
             desc := "Undocumented Option, please fix!", value := "1" }] :
            List DocItem).map dkey) := by
  refine ⟨by decide, by decide, by decide⟩

/-- C2 (amended): the final tuple is the deduplication of the emitted
items; the dict is keyed by the `__hash__` of `(subthing, option)` and
its values are read back in hash-slot iteration order (not
first-insertion order), its content being exactly one survivor per key
with later occurrences overwriting earlier ones.  Whenever the hashes
of the occurring `(subthing, option)` pairs do not collide, the
hash-keyed content equals the pair-keyed content: per pair only the
last-occurring item survives in the final tuple and items with distinct
pairs are all retained. -/
theorem dedupe_last_write :
    (∀ s items, from_string s = .ok items → ∃ raw, items = dedupe raw) ∧
    (∀ items : List DocItem, (dedupe items).Perm (upsertAll dkeyHash [] items)) ∧
    (∀ items : List DocItem,
      (∀ x ∈ items, ∀ y ∈ items, dkeyHash x = dkeyHash y → dkey x = dkey y) →
      upsertAll dkeyHash [] items = dedupePairs items ∧
      (dedupePairs items).map dkey = keepFirsts (items.map dkey) ∧
      ((dedupePairs items).map dkey).Nodup ∧
      (∀ d ∈ dedupe items, findKey dkey (dkey d) items.reverse = some d) ∧
      (∀ x ∈ items, ∃ d ∈ dedupe items, dkey d = dkey x)) := by
  refine ⟨?_, dedupe_perm_mapping, ?_⟩
  · intro s items h
    unfold from_string new_docitems at h
    rcases hr : runLines (splitlinesChars s.data) [] (reset_state none)
      with e | p <;> rw [hr] at h
    · cases h
    · simp only [Except.ok.injEq] at h
      exact ⟨_, h.symm⟩
  · intro items hinj
    have heq := upsertAll_hash_eq_pairs items hinj
    have hmap : (dedupePairs items).map dkey = keepFirsts (items.map dkey) :=
      upsertAll_nil_map_key dkey items
    have hnodup : ((dedupePairs items).map dkey).Nodup := by
      rw [hmap]
      exact keepFirstsAux_nodup _ []
    refine ⟨heq, hmap, hnodup, ?_, ?_⟩
    · intro d hd
      have hd2 : d ∈ dedupePairs items := by
        have hmem := (dedupe_perm_mapping items).mem_iff.mp hd
        rwa [heq] at hmem
      rw [← upsertAll_nil_find dkey items (dkey d)]
      exact findKey_self dkey (dedupePairs items) d hnodup hd2
    · intro x hx
      have hmem : dkey x ∈ (dedupePairs items).map dkey := by
        rw [hmap, keepFirsts_mem]
        exact List.mem_map_of_mem dkey hx
      rcases List.mem_map.mp hmem with ⟨d, hd, hk⟩
      refine ⟨d, ?_, hk⟩
      apply (dedupe_perm_mapping items).mem_iff.mpr
      rw [heq]
      exact hd

theorem dedupe_last_write_witness :
    ∃ d ∈ dedupe [{ subthing := "s", option := "k", desc := "d1", value := "v1" },
                  { subthing := "s", option := "k", desc := "d2", value := "v2" }],
      dkey d = dkey { subthing := "s", option := "k", desc := "d1", value := "v1" } :=
  ((dedupe_last_write.2.2
    [{ subthing := "s", option := "k", desc := "d1", value := "v1" },
     { subthing := "s", option := "k", desc := "d2", value := "v2" }]
    (by decide)).2.2.2.2)
    { subthing := "s", option := "k", desc := "d1", value := "v1" } (by decide)

theorem cmpChars_self (l : List Char) : cmpChars l l = Ordering.eq := by
  induction l with
  | nil => rfl
  | cons a as ih => simp [cmpChars, lt_irrefl, ih]

/-- C4: `DocItem` equality (`__cmp__`) and hashing are functions of the
`(subthing, option)` pair only: two items with equal `subthing` and
`option` but arbitrary (possibly different) `desc` and `value` compare
equal and hash from equal keys. -/
theorem docitem_cmp_hash_ignore_desc_value (a b : DocItem)
    (hs : a.subthing = b.subthing) (ho : a.option = b.option) :
    docItemCmp a b = Ordering.eq ∧ docItemHashKey a = docItemHashKey b := by
  refine ⟨?_, ?_⟩
  · rw [docItemCmp, hs, ho, cmpChars_self, cmpChars_self]
    rfl
  · rw [docItemHashKey, docItemHashKey, hs, ho]

theorem docitem_cmp_hash_ignore_desc_value_witness :
    docItemCmp { subthing := "s", option := "o", desc := "d1", value := "v1" }
        { subthing := "s", option := "o", desc := "d2", value := "v2" } =
      Ordering.eq ∧
    docItemHashKey { subthing := "s", option := "o", desc := "d1", value := "v1" } =
      docItemHashKey { subthing := "s", option := "o", desc := "d2", value := "v2" } :=
  docitem_cmp_hash_ignore_desc_value _ _ rfl rfl

theorem cfgoptval_match_nonword (c : Char) (rest : List Char)
    (hc : isWordChar c = false) :
    cfgoptval_match (c :: rest) = none := by
  unfold cfgoptval_match
  simp [List.takeWhile_cons, hc]

theorem take3_spaces_shape {line : List Char}
    (h3 : line.take 3 = [' ', ' ', ' ']) :
    ∃ rest, line = ' ' :: ' ' :: ' ' :: rest := by
  match line, h3 with
  | c1 :: c2 :: c3 :: rest, h3 =>
    simp only [List.take, List.cons.injEq] at h3
    obtain ⟨rfl, rfl, rfl, -⟩ := h3
    exact ⟨rest, rfl⟩

theorem parse_line_continuation (sub opt val desc line : List Char)
    (hm : cfgoptval_match line = none)
    (h3 : line.take 3 = [' ', ' ', ' ']) :
    parse_line line ⟨some sub, desc, some (opt, val)⟩ =
      .ok (none, ⟨some sub, stripChars desc,
        some (opt, stripChars (val ++ ' ' :: lstripChars line))⟩) := by
  obtain ⟨rest, rfl⟩ := take3_spaces_shape h3
  have h1 : ¬((' ' :: ' ' :: ' ' :: rest).head? = some '[' ∧
      (' ' :: ' ' :: ' ' :: rest).getLast? = some ']') := by
    rintro ⟨hh, -⟩
    simp at hh
  have h2 : (' ' :: ' ' :: ' ' :: rest).take 2 ≠ ['#', ':'] := by
    intro hh
    simp [List.take] at hh
  unfold parse_line
  rw [if_neg h1, if_neg h2]
  unfold parse_non_section
  rw [hm]
  simp [state_complete, h3]

/-- C5: With a completed accumulator (section, description, option and
value all set), a following line that does not match the option-line
pattern and starts with at least three spaces is treated as a value
continuation: its leading whitespace is collapsed to one space and it is
appended (whitespace-trimmed) to the existing value; the resulting state
is again complete, so this can repeat on further continuation lines. -/
theorem value_continuation_appends (sub opt val desc line : List Char)
    (hm : cfgoptval_match line = none)
    (h3 : line.take 3 = [' ', ' ', ' ']) :
    parse_line line ⟨some sub, desc, some (opt, val)⟩ =
      .ok (none, ⟨some sub, stripChars desc,
        some (opt, stripChars (val ++ ' ' :: lstripChars line))⟩) :=
  parse_line_continuation sub opt val desc line hm h3

theorem value_continuation_appends_witness :
    parse_line "   second".data ⟨some "s".data, "doc".data,
        some ("key".data, "first".data)⟩ =
      .ok (none, ⟨some "s".data, stripChars "doc".data,
        some ("key".data,
          stripChars ("first".data ++ ' ' :: lstripChars "   second".data))⟩) ∧
    stripChars ("first".data ++ ' ' :: lstripChars "   second".data) =
      "first second".data :=
  ⟨value_continuation_appends "s".data "key".data "first".data "doc".data
    "   second".data (by decide) (by decide), by decide⟩

/-- C10 counterexample: a line with leading whitespace that textually
looks like an option assignment but has fewer than three leading
spaces is not treated as a value continuation: after a completed
option, ` key2 = v` (one leading space) is junk — it flushes the
pending item and leaves the value unchanged rather than appending the
line to it. -/
theorem one_space_assignment_not_continuation :
    parse_line " key2 = v".data
        ⟨some "s".data, "doc".data, some ("key".data, "first".data)⟩ =
      .ok (some { subthing := "s", option := "key", desc := "doc", value := "first" },
           ⟨some "s".data, "doc".data, some ("key".data, "first".data)⟩) ∧
    "first".data ≠ stripChars ("first".data ++ ' ' :: lstripChars " key2 = v".data) := by
  refine ⟨by decide, by decide⟩

/-- C10 (amended): The option-line regex is matched only at the start
of a line and must begin with a word character, so a line whose first
character is not a word character never matches and hence never starts
a new option; an indented line that textually looks like an option
assignment and has at least three leading spaces (such as `   key2 = v`
following a completed option; lines with one or two leading spaces are
junk and flush the pending item without appending) is treated as a
value continuation appended to the previous option's value, the option
key of the state unchanged. -/
theorem indented_assignment_is_continuation :
    (∀ (c : Char) (rest : List Char), isWordChar c = false →
      cfgoptval_match (c :: rest) = none) ∧
    (∀ sub opt val desc line : List Char, line.take 3 = [' ', ' ', ' '] →
      parse_line line ⟨some sub, desc, some (opt, val)⟩ =
        .ok (none, ⟨some sub, stripChars desc,
          some (opt, stripChars (val ++ ' ' :: lstripChars line))⟩)) := by
  refine ⟨fun c rest hc => cfgoptval_match_nonword c rest hc, ?_⟩
  intro sub opt val desc line h3
  obtain ⟨rest, rfl⟩ := take3_spaces_shape h3
  exact parse_line_continuation _ _ _ _ _
    (cfgoptval_match_nonword _ _ (by decide)) h3

theorem indented_assignment_is_continuation_witness :
    parse_line "   key2 = v".data ⟨some "s".data, "doc".data,
        some ("key".data, "first".data)⟩ =
      .ok (none, ⟨some "s".data, stripChars "doc".data,
        some ("key".data,
          stripChars ("first".data ++ ' ' :: lstripChars "   key2 = v".data))⟩) ∧
    stripChars ("first".data ++ ' ' :: lstripChars "   key2 = v".data) =
      "first key2 = v".data :=
  ⟨indented_assignment_is_continuation.2 "s".data "key".data "first".data
    "doc".data "   key2 = v".data (by decide), by decide⟩

theorem pyFormatAux_noBrace : ∀ (n : Nat) (cs : List Char), cs.length ≤ n →
    noBrace cs → pyFormatAux n cs = .ok cs := by
  intro n
  induction n with
  | zero =>
    intro cs hlen _
    cases cs with
    | nil => rfl
    | cons c rest => simp at hlen
  | succ n ih =>
    intro cs hlen hnb
    cases cs with
    | nil => rfl
    | cons c rest =>
      have hc1 : c ≠ '{' := by rintro rfl; exact hnb.1 (List.mem_cons_self _ _)
      have hc2 : c ≠ '}' := by rintro rfl; exact hnb.2 (List.mem_cons_self _ _)
      have hrest : noBrace rest :=
        ⟨fun h => hnb.1 (List.mem_cons_of_mem _ h),
         fun h => hnb.2 (List.mem_cons_of_mem _ h)⟩
      unfold pyFormatAux
      rw [if_neg hc1, if_neg hc2]
      rw [ih rest (by simp at hlen; omega) hrest]
      rfl

theorem pyFormat_noBrace (cs : List Char) (h : noBrace cs) :
    pyFormat cs = .ok cs :=
  pyFormatAux_noBrace cs.length cs le_rfl h

theorem mem_lstripChars {a : Char} {l : List Char} (h : a ∈ lstripChars l) :
    a ∈ l :=
  (List.dropWhile_sublist pyIsSpace).mem h

theorem mem_rstripChars {a : Char} {l : List Char} (h : a ∈ rstripChars l) :
    a ∈ l := by
  unfold rstripChars at h
  rw [List.mem_reverse] at h
  have := (List.dropWhile_sublist pyIsSpace).mem h
  rwa [List.mem_reverse] at this

theorem mem_stripChars {a : Char} {l : List Char} (h : a ∈ stripChars l) :
    a ∈ l :=
  mem_rstripChars (mem_lstripChars h)

theorem noBrace_stripChars {l : List Char} (h : noBrace l) :
    noBrace (stripChars l) :=
  ⟨fun hm => h.1 (mem_stripChars hm), fun hm => h.2 (mem_stripChars hm)⟩

theorem noBrace_drop {l : List Char} (n : Nat) (h : noBrace l) :
    noBrace (l.drop n) :=
  ⟨fun hm => h.1 ((List.drop_sublist n l).mem hm),
   fun hm => h.2 ((List.drop_sublist n l).mem hm)⟩

theorem noBrace_undoc : noBrace undocChars := by decide

theorem noBrace_append {x y : List Char} (hx : noBrace x) (hy : noBrace y) :
    noBrace (x ++ y) := by
  constructor <;> rw [List.mem_append] <;> rintro (h | h)
  · exact hx.1 h
  · exact hy.1 h
  · exact hx.2 h
  · exact hy.2 h

theorem noBrace_cons_space {t : List Char} (h : noBrace t) :
    noBrace (' ' :: t) := by
  constructor <;> rw [List.mem_cons] <;> rintro (h1 | h1)
  · simp at h1
  · exact h.1 h1
  · simp at h1
  · exact h.2 h1

theorem noBrace_state_complete {st : PState} (hd : noBrace st.desc) :
    noBrace ((state_complete st).2).desc := by
  unfold state_complete
  by_cases hc : (st.subthing.isSome && st.optval.isSome) = true
  · rw [if_pos hc]
    exact noBrace_stripChars hd
  · rw [if_neg hc]
    exact hd

theorem noBrace_doc_reset {st : PState} (hd : noBrace st.desc) :
    noBrace (doc_reset st).desc := by
  unfold doc_reset
  by_cases hc : (state_complete st).1 = true
  · rw [if_pos hc]
    exact noBrace_undoc
  · rw [if_neg hc]
    exact noBrace_state_complete hd

theorem noBrace_newDesc {line : List Char} {st : PState} (hd : noBrace st.desc)
    (hl : noBrace line) : noBrace (newDesc line st) := by
  unfold newDesc
  by_cases h : (doc_reset st).desc = undocChars
  · rw [if_pos h]
    exact noBrace_stripChars (noBrace_drop 2 hl)
  · rw [if_neg h]
    exact noBrace_append (noBrace_doc_reset hd)
      (noBrace_cons_space (noBrace_stripChars (noBrace_drop 2 hl)))

theorem noBrace_parse_non_section (line : List Char) (st : PState)
    (hd : noBrace st.desc) :
    noBrace ((parse_non_section line st).2).desc := by
  unfold parse_non_section
  rcases hm : cfgoptval_match line with _ | ov <;> simp only [hm]
  · by_cases h1 : ((state_complete st).1 && (line.take 3 == [' ', ' ', ' '])) = true
    · rw [if_pos h1]
      exact noBrace_state_complete hd
    · rw [if_neg h1]
      by_cases h2 : (state_complete st).1 = true
      · rw [if_pos h2]
        exact noBrace_state_complete hd
      · rw [if_neg h2]
        exact noBrace_state_complete hd
  · by_cases h2 : (state_complete st).1 = true
    · rw [if_pos h2]
      exact noBrace_undoc
    · rw [if_neg h2]
      exact noBrace_state_complete hd

theorem parse_line_ok (line : List Char) (st : PState)
    (hd : noBrace st.desc)
    (hl : line.take 2 = ['#', ':'] → noBrace line) :
    ∃ res st2, parse_line line st = .ok (res, st2) ∧ noBrace st2.desc := by
  unfold parse_line
  by_cases hsec : (line.head? = some '[' ∧ line.getLast? = some ']')
  · rw [if_pos hsec]
    exact ⟨_, _, rfl, noBrace_undoc⟩
  · rw [if_neg hsec]
    by_cases hdc : line.take 2 = ['#', ':']
    · rw [if_pos hdc]
      have hnew : noBrace (newDesc line st) := noBrace_newDesc hd (hl hdc)
      rw [pyFormat_noBrace _ hnew]
      exact ⟨_, _, rfl, hnew⟩
    · rw [if_neg hdc]
      exact ⟨_, _, rfl, noBrace_parse_non_section line st hd⟩

theorem runLines_ok (lines : List (List Char)) :
    ∀ (acc : List DocItem) (st : PState), noBrace st.desc →
      (∀ l ∈ lines, (rstripChars l).take 2 = ['#', ':'] →
        noBrace (rstripChars l)) →
      ∃ res, runLines lines acc st = .ok res := by
  induction lines with
  | nil =>
    intro acc st _ _
    exact ⟨_, rfl⟩
  | cons l ls ih =>
    intro acc st hd hl
    obtain ⟨res, st2, heq, hd2⟩ :=
      parse_line_ok (rstripChars l) st hd (hl l (List.mem_cons_self _ _))
    unfold runLines
    rw [heq]
    cases res with
    | none => exact ih acc st2 hd2 (fun l2 hm => hl l2 (List.mem_cons_of_mem _ hm))
    | some d =>
      exact ih (acc ++ [d]) st2 hd2 (fun l2 hm => hl l2 (List.mem_cons_of_mem _ hm))

/-- C3 counterexample: the parser itself can raise on line content: a
doc-comment line containing a stray opening brace makes the
`desc.format(**desc_fmt_map)` call raise, so `from_string` fails. -/
theorem parser_error_on_brace_doc_comment :
    from_string "#: \x7b" =
      .error "ValueError: single opening brace in format string" := by
  decide

/-- C3 (amended): the parser never raises on section lines, option
lines (well-formed or malformed: regex-unparseable lines silently
degrade to the junk/continuation cases) or junk lines; the only lines
that can raise are doc-comment lines, through the brace substitution
applied to the accumulated description.  Hence whenever every
doc-comment line of the input is free of the brace characters `{`/`}`,
`from_string` succeeds regardless of all other line content. -/
theorem parser_total_unless_brace_doc_comment :
    ∀ s : String,
      (∀ l ∈ splitlinesChars s.data,
        (rstripChars l).take 2 = ['#', ':'] → noBrace (rstripChars l)) →
      ∃ items, from_string s = .ok items := by
  intro s hl
  obtain ⟨res, hres⟩ :=
    runLines_ok (splitlinesChars s.data) [] (reset_state none) noBrace_undoc hl
  unfold from_string new_docitems
  rw [hres]
  exact ⟨_, rfl⟩

theorem parser_total_unless_brace_doc_comment_witness :
    (∀ l ∈ splitlinesChars ("???junk\n= malformed\nfoo = 1\n[s]\nbad : : line".data),
      (rstripChars l).take 2 = ['#', ':'] → noBrace (rstripChars l)) ∧
    ∃ items,
      from_string "???junk\n= malformed\nfoo = 1\n[s]\nbad : : line" = .ok items :=
  ⟨by decide, parser_total_unless_brace_doc_comment _ (by decide)⟩

theorem head?_dropWhile_all (p : Char → Bool) (l : List Char) :
    ((l.dropWhile p).head?.all (fun c => !(p c))) = true := by
  induction l with
  | nil => rfl
  | cons a l ih =>
    rw [List.dropWhile_cons]
    by_cases h : p a = true
    · rw [if_pos h]
      exact ih
    · rw [if_neg h]
      have hf : p a = false := by revert h; cases p a <;> simp
      simp [hf]

theorem getLast?_dropWhile_sub (p : Char → Bool) (l : List Char) {c : Char}
    (h : (l.dropWhile p).getLast? = some c) : l.getLast? = some c := by
  induction l with
  | nil => simp [List.dropWhile] at h
  | cons a l ih =>
    rw [List.dropWhile_cons] at h
    by_cases hp : p a = true
    · rw [if_pos hp] at h
      have hl := ih h
      cases l with
      | nil => simp at hl
      | cons b l2 => rw [List.getLast?_cons_cons]; exact hl
    · rw [if_neg hp] at h
      exact h

theorem noEdgeSpace_strip (l : List Char) : noEdgeSpace (stripChars l) := by
  constructor
  · exact head?_dropWhile_all pyIsSpace (rstripChars l)
  · cases hG : (stripChars l).getLast? with
    | none => rfl
    | some c =>
      have h2 : (rstripChars l).getLast? = some c :=
        getLast?_dropWhile_sub pyIsSpace (rstripChars l) hG
      unfold rstripChars at h2
      rw [List.getLast?_reverse] at h2
      have h3 := head?_dropWhile_all pyIsSpace l.reverse
      rw [h2] at h3
      exact h3

theorem mkDocItem_value_ne (sub opt desc val : List Char) :
    (mkDocItem sub opt desc val).value ≠ "" := by
  show (if val = [] then empty_value else String.mk val) ≠ ""
  by_cases h : val = []
  · rw [if_pos h]
    decide
  · rw [if_neg h]
    intro hc
    apply h
    exact congrArg String.data hc

theorem good_docItemOfState (st : PState) (hc : (state_complete st).1 = true) :
    noEdgeSpace ((docItemOfState (state_complete st).2).desc.data) ∧
    (docItemOfState (state_complete st).2).value ≠ "" := by
  constructor
  · unfold state_complete at hc ⊢
    by_cases h : (st.subthing.isSome && st.optval.isSome) = true
    · rw [if_pos h]
      exact noEdgeSpace_strip st.desc
    · rw [if_neg h] at hc
      simp at hc
  · exact mkDocItem_value_ne _ _ _ _

theorem emitted_good {st : PState} {d : DocItem} (h : emitted st = some d) :
    noEdgeSpace d.desc.data ∧ d.value ≠ "" := by
  unfold emitted at h
  by_cases hc : (state_complete st).1 = true
  · rw [if_pos hc] at h
    cases h
    exact good_docItemOfState st hc
  · rw [if_neg hc] at h
    cases h

theorem parse_line_emission {line : List Char} {st : PState} {d : DocItem}
    {res : Option DocItem × PState}
    (h : parse_line line st = .ok res) (hd : res.1 = some d) :
    noEdgeSpace d.desc.data ∧ d.value ≠ "" := by
  unfold parse_line at h
  by_cases hsec : (line.head? = some '[' ∧ line.getLast? = some ']')
  · rw [if_pos hsec] at h
    cases h
    exact emitted_good hd
  · rw [if_neg hsec] at h
    by_cases hdc : line.take 2 = ['#', ':']
    · rw [if_pos hdc] at h
      rcases hf : pyFormat (newDesc line st) with e | fdesc <;> rw [hf] at h
      · cases h
      · cases h
        exact emitted_good hd
    · rw [if_neg hdc] at h
      cases h
      unfold parse_non_section at hd
      rcases hm : cfgoptval_match line with _ | ov <;> simp only [hm] at hd
      · by_cases h1 : ((state_complete st).1 && (line.take 3 == [' ', ' ', ' '])) = true
        · rw [if_pos h1] at hd
          simp at hd
        · rw [if_neg h1] at hd
          by_cases h2 : (state_complete st).1 = true
          · rw [if_pos h2] at hd
            cases hd
            exact good_docItemOfState st h2
          · rw [if_neg h2] at hd
            simp at hd
      · by_cases h2 : (state_complete st).1 = true
        · rw [if_pos h2] at hd
          cases hd
          exact good_docItemOfState st h2
        · rw [if_neg h2] at hd
          simp at hd

theorem runLines_emissions (lines : List (List Char)) :
    ∀ (acc : List DocItem) (st : PState) (fin : List DocItem × PState),
      runLines lines acc st = .ok fin →
      (∀ d ∈ acc, noEdgeSpace d.desc.data ∧ d.value ≠ "") →
      ∀ d ∈ fin.1, noEdgeSpace d.desc.data ∧ d.value ≠ "" := by
  induction lines with
  | nil =>
    intro acc st fin h hacc
    unfold runLines at h
    cases h
    exact hacc
  | cons l ls ih =>
    intro acc st fin h hacc
    unfold runLines at h
    rcases hp : parse_line (rstripChars l) st with e | ⟨res, st2⟩ <;> rw [hp] at h
    · cases h
    · cases res with
      | none => exact ih acc st2 fin h hacc
      | some d2 =>
        refine ih (acc ++ [d2]) st2 fin h ?_
        intro d hd
        rcases List.mem_append.mp hd with hmem | hmem
        · exact hacc d hmem
        · rw [List.mem_singleton] at hmem
          subst hmem
          exact parse_line_emission hp rfl

/-- C9: Every `DocItem` in the final tuple produced by parsing has all
four fields set (the embedding's items are total strings because every
emission happens on a complete state, whose fields are all present and
non-None), a `desc` with no leading or trailing whitespace, and a
`value` that is never the empty string (an empty configured value is
replaced by the `<None>` sentinel at construction). -/
theorem parsed_items_invariant :
    ∀ (s : String) (items : List DocItem), from_string s = .ok items →
      ∀ d ∈ items, noEdgeSpace d.desc.data ∧ d.value ≠ "" := by
  intro s items h d hd
  unfold from_string new_docitems at h
  rcases hr : runLines (splitlinesChars s.data) [] (reset_state none)
    with e | ⟨acc, st⟩ <;> rw [hr] at h
  · cases h
  · simp only [Except.ok.injEq] at h
    subst h
    have hacc := runLines_emissions (splitlinesChars s.data) [] (reset_state none)
      (acc, st) hr (by intro d2 hd2; simp at hd2)
    have hd2 := mem_dedupe _ d hd
    by_cases hc : (state_complete st).1 = true
    · rw [if_pos hc] at hd2
      rcases List.mem_append.mp hd2 with hmem | hmem
      · exact hacc d hmem
      · rw [List.mem_singleton] at hmem
        subst hmem
        exact good_docItemOfState st hc
    · rw [if_neg hc] at hd2
      exact hacc d hd2

theorem parsed_items_invariant_witness :
    noEdgeSpace ({ subthing := "s", option := "foo",
                   desc := "Undocumented Option, please fix!",
                   value := "1" } : DocItem).desc.data ∧
      ({ subthing := "s", option := "foo",
         desc := "Undocumented Option, please fix!",
         value := "1" } : DocItem).value ≠ "" :=
  parsed_items_invariant "[s]\nfoo=1"
    [{ subthing := "s", option := "foo",
       desc := "Undocumented Option, please fix!", value := "1" }]
    (by decide)
    { subthing := "s", option := "foo",
      desc := "Undocumented Option, please fix!", value := "1" }
    (by decide)

theorem mem_insertDescLen (x z : String) (l : List String) :
    z ∈ insertDescLen x l ↔ z = x ∨ z ∈ l := by
  induction l with
  | nil => simp [insertDescLen]
  | cons y ys ih =>
    unfold insertDescLen
    by_cases h : x.length < y.length
    · rw [if_pos h, List.mem_cons, ih, List.mem_cons]
      tauto
    · rw [if_neg h]
      simp [List.mem_cons]

theorem pairwise_insertDescLen (x : String) (l : List String)
    (h : List.Pairwise (fun a b => b.length ≤ a.length) l) :
    List.Pairwise (fun a b => b.length ≤ a.length) (insertDescLen x l) := by
  induction l with
  | nil => simp [insertDescLen]
  | cons y ys ih =>
    unfold insertDescLen
    by_cases hlt : x.length < y.length
    · rw [if_pos hlt, List.pairwise_cons]
      rw [List.pairwise_cons] at h
      constructor
      · intro z hz
        rw [mem_insertDescLen] at hz
        rcases hz with rfl | hz
        · omega
        · exact h.1 z hz
      · exact ih h.2
    · rw [if_neg hlt, List.pairwise_cons]
      constructor
      · intro z hz
        rcases List.mem_cons.mp hz with rfl | hz
        · omega
        · have := (List.pairwise_cons.mp h).1 z hz
          omega
      · exact h

theorem perm_insertDescLen (x : String) (l : List String) :
    (insertDescLen x l).Perm (x :: l) := by
  induction l with
  | nil => exact List.Perm.refl _
  | cons y ys ih =>
    unfold insertDescLen
    by_cases hlt : x.length < y.length
    · rw [if_pos hlt]
      exact (ih.cons y).trans (List.Perm.swap x y ys)
    · rw [if_neg hlt]

theorem sortDescLen_perm (l : List String) : (sortDescLen l).Perm l := by
  induction l with
  | nil => exact List.Perm.refl _
  | cons a l ih =>
    unfold sortDescLen
    exact (perm_insertDescLen a (sortDescLen l)).trans (ih.cons a)

theorem sortDescLen_sorted (l : List String) :
    List.Pairwise (fun a b => b.length ≤ a.length) (sortDescLen l) := by
  induction l with
  | nil => simp [sortDescLen]
  | cons a l ih =>
    unfold sortDescLen
    exact pairwise_insertDescLen a _ ih

theorem filter_insertDescLen (x : String) (n : Nat) (l : List String) :
    (insertDescLen x l).filter (fun y => y.length == n) =
      if x.length = n then x :: l.filter (fun y => y.length == n)
      else l.filter (fun y => y.length == n) := by
  induction l with
  | nil =>
    unfold insertDescLen
    by_cases h : x.length = n
    · rw [if_pos h]
      simp [List.filter_cons, h]
    · rw [if_neg h]
      simp [List.filter_cons, h]
  | cons y ys ih =>
    unfold insertDescLen
    by_cases hlt : x.length < y.length
    · rw [if_pos hlt]
      by_cases hx : x.length = n
      · rw [if_pos hx]
        have hy : (y.length == n) = false := by
          simp only [beq_eq_false_iff_ne, ne_eq]
          omega
        rw [List.filter_cons, List.filter_cons, hy]
        simp only [Bool.false_eq_true, if_false]
        rw [ih, if_pos hx]
      · rw [if_neg hx]
        rw [List.filter_cons, List.filter_cons]
        by_cases hy : (y.length == n) = true
        · rw [hy]
          simp only [if_true]
          rw [ih, if_neg hx]
        · rw [Bool.not_eq_true] at hy
          rw [hy]
          simp only [Bool.false_eq_true, if_false]
          rw [ih, if_neg hx]
    · rw [if_neg hlt]
      by_cases hx : x.length = n
      · rw [if_pos hx]
        rw [List.filter_cons]
        have : (x.length == n) = true := by simp [hx]
        rw [this]
        simp only [if_true]
      · rw [if_neg hx]
        rw [List.filter_cons]
        have : (x.length == n) = false := by
          simp only [beq_eq_false_iff_ne, ne_eq]
          exact hx
        rw [this]
        simp only [Bool.false_eq_true, if_false]

theorem sortDescLen_filter (l : List String) (n : Nat) :
    (sortDescLen l).filter (fun y => y.length == n) =
      l.filter (fun y => y.length == n) := by
  induction l with
  | nil => rfl
  | cons a l ih =>
    unfold sortDescLen
    rw [filter_insertDescLen]
    by_cases h : a.length = n
    · rw [if_pos h, ih, List.filter_cons]
      simp [h]
    · rw [if_neg h, ih, List.filter_cons]
      simp [h]

theorem sorted_getLast_min (names : List String) (hne : names ≠ [])
    (hp : List.Pairwise (fun a b => b.length ≤ a.length) names) :
    ∀ c ∈ names, (names.getLastD "").length ≤ c.length := by
  have hlastD : names.getLastD "" = names.getLast hne := by
    rw [List.getLastD_eq_getLast?, List.getLast?_eq_getLast names hne]
    rfl
  have hdecomp : names.dropLast ++ [names.getLast hne] = names :=
    List.dropLast_append_getLast hne
  intro c hc
  rw [hlastD]
  rw [← hdecomp] at hp hc
  rw [List.pairwise_append] at hp
  rcases List.mem_append.mp hc with hm | hm
  · exact hp.2.2 c hm _ (List.mem_singleton_self _)
  · rw [List.mem_singleton] at hm
    subst hm
    exact le_rfl

/-- C7: `subthing_names` returns all section names found by the
reference section parser, sorted by decreasing length with ties kept in
original file order (the stable descending sort of the Python
`sort(cmp on len, reverse=True)`), and raises an `IOError` naming the
source when no sections are found; on the sections `[a]`, `[ab]`,
`[abc]` this gives `("abc", "ab", "a")`, `subtest_name` is `"a"` and
`subsub_names` is the set containing exactly `"ab"` and `"abc"`. -/
theorem subthing_names_spec :
    (∀ s : String,
      (rawSections (splitlinesChars s.data) = [] →
        ∃ e, subthing_names s = .error e) ∧
      (rawSections (splitlinesChars s.data) ≠ [] →
        subthing_names s = .ok (sortDescLen (rawSections (splitlinesChars s.data))) ∧
        List.Pairwise (fun a b => b.length ≤ a.length)
          (sortDescLen (rawSections (splitlinesChars s.data))) ∧
        (sortDescLen (rawSections (splitlinesChars s.data))).Perm
          (rawSections (splitlinesChars s.data)) ∧
        (∀ n, (sortDescLen (rawSections (splitlinesChars s.data))).filter
              (fun y => y.length == n) =
            (rawSections (splitlinesChars s.data)).filter
              (fun y => y.length == n)))) ∧
    subthing_names "[a]\n[ab]\n[abc]" = .ok ["abc", "ab", "a"] ∧
    subtest_name "[a]\n[ab]\n[abc]" = .ok "a" ∧
    subsub_names "[a]\n[ab]\n[abc]" = .ok ["abc", "ab"] ∧
    (∀ x : String, x ∈ ["abc", "ab"] ↔ (x = "ab" ∨ x = "abc")) := by
  refine ⟨?_, by decide, by decide, by decide, ?_⟩
  · intro s
    constructor
    · intro hempty
      unfold subthing_names
      rw [if_pos (by rw [List.isEmpty_iff]; exact hempty)]
      exact ⟨_, rfl⟩
    · intro hne
      unfold subthing_names
      rw [if_neg (by rw [List.isEmpty_iff]; exact hne)]
      exact ⟨rfl, sortDescLen_sorted _, sortDescLen_perm _,
        fun n => sortDescLen_filter _ n⟩
  · intro x
    constructor
    · intro hx
      rcases List.mem_cons.mp hx with rfl | hx
      · exact Or.inr rfl
      · rw [List.mem_singleton] at hx
        exact Or.inl hx
    · rintro (rfl | rfl)
      · exact List.mem_cons_of_mem _ (List.mem_singleton_self _)
      · exact List.mem_cons_self _ _

theorem subthing_names_spec_witness :
    rawSections (splitlinesChars ("[a]\n[ab]\n[abc]".data)) ≠ [] ∧
    subthing_names "[a]\n[ab]\n[abc]" =
      .ok (sortDescLen (rawSections (splitlinesChars ("[a]\n[ab]\n[abc]".data)))) :=
  ⟨by decide, ((subthing_names_spec.1 "[a]\n[ab]\n[abc]").2 (by decide)).1⟩

/-- C6: With two or more sections, if two distinct sections tie for the
shortest name length then `subtest_name` raises an `IOError` (whose
message names the literal ini string); if the shortest-named section is
unique, `subtest_name` returns that section's name without error. -/
theorem subtest_name_spec (s : String) (names : List String)
    (hsub : subthing_names s = .ok names) (h2 : 2 ≤ names.length) :
    ((∃ a ∈ names, ∃ b ∈ names, a ≠ b ∧ a.length = b.length ∧
        ∀ c ∈ names, a.length ≤ c.length) → ∃ e, subtest_name s = .error e) ∧
    (∀ x ∈ names, (∀ c ∈ names, c ≠ x → x.length < c.length) →
      subtest_name s = .ok x) := by
  have h := hsub
  unfold subthing_names at h
  by_cases hemp : (rawSections (splitlinesChars s.data)).isEmpty = true
  · rw [if_pos hemp] at h
    cases h
  · rw [if_neg hemp] at h
    simp only [Except.ok.injEq] at h
    have hnodup : names.Nodup := by
      rw [← h]
      exact (sortDescLen_perm _).symm.nodup (keepFirstsAux_nodup _ [])
    have hsorted : List.Pairwise (fun a b => b.length ≤ a.length) names := by
      rw [← h]
      exact sortDescLen_sorted _
    have hne : names ≠ [] := by
      intro hn
      rw [hn] at h2
      simp at h2
    have hmin := sorted_getLast_min names hne hsorted
    have hlen1 : names.length ≠ 1 := by omega
    have hdecomp : names.dropLast ++ [names.getLast hne] = names :=
      List.dropLast_append_getLast hne
    have hlastD : names.getLastD "" = names.getLast hne := by
      rw [List.getLastD_eq_getLast?, List.getLast?_eq_getLast names hne]
      rfl
    have hlast_mem : names.getLastD "" ∈ names := by
      rw [hlastD]
      exact List.getLast_mem hne
    constructor
    · rintro ⟨a, ha, b, hb, hab, hlen, hminA⟩
      have haL : a.length = (names.getLastD "").length := by
        have h1 := hminA _ hlast_mem
        have h2' := hmin a ha
        omega
      have hbL : b.length = (names.getLastD "").length := by omega
      have hpick : ∃ y ∈ names.dropLast,
          y.length = (names.getLastD "").length := by
        by_cases hay : a = names.getLastD ""
        · refine ⟨b, ?_, hbL⟩
          have hbne : b ≠ names.getLast hne := by
            intro hbl
            exact hab (hay.trans (hlastD.trans hbl.symm))
          have hbmem := hb
          rw [← hdecomp] at hbmem
          rcases List.mem_append.mp hbmem with hm | hm
          · exact hm
          · rw [List.mem_singleton] at hm
            exact absurd hm hbne
        · refine ⟨a, ?_, haL⟩
          have hane : a ≠ names.getLast hne := by
            rw [← hlastD]
            exact hay
          have hamem := ha
          rw [← hdecomp] at hamem
          rcases List.mem_append.mp hamem with hm | hm
          · exact hm
          · rw [List.mem_singleton] at hm
            exact absurd hm hane
      unfold subtest_name
      simp only [hsub]
      rw [if_neg hlen1]
      rcases hpick with ⟨y, hy, hyl⟩
      have hany : (names.dropLast.any
          fun nn => nn.length = (names.getLastD "").length) = true := by
        simp only [List.any_eq_true, decide_eq_true_eq]
        exact ⟨y, hy, hyl⟩
      rw [if_pos hany]
      exact ⟨_, rfl⟩
    · intro x hx hstrict
      have hxlast : names.getLastD "" = x := by
        by_contra hne2
        have h1 : x.length < (names.getLastD "").length :=
          hstrict _ hlast_mem hne2
        have h2' := hmin x hx
        omega
      have hxnotdrop : x ∉ names.dropLast := by
        intro hxd
        have hnodup2 := hnodup
        rw [← hdecomp, List.nodup_append] at hnodup2
        refine hnodup2.2.2 hxd ?_
        rw [List.mem_singleton, ← hxlast, hlastD]
      unfold subtest_name
      simp only [hsub]
      rw [if_neg hlen1]
      have hany : (names.dropLast.any
          fun nn => nn.length = (names.getLastD "").length) = false := by
        rw [Bool.eq_false_iff]
        intro hc
        simp only [List.any_eq_true, decide_eq_true_eq] at hc
        rcases hc with ⟨y, hy, hyl⟩
        have hymem : y ∈ names := by
          rw [← hdecomp]
          exact List.mem_append_left _ hy
        have hyx : y ≠ x := by
          intro hEq
          exact hxnotdrop (hEq ▸ hy)
        have := hstrict y hymem hyx
        rw [hxlast] at hyl
        omega
      rw [hany, if_neg (by simp)]
      rw [hxlast]

theorem subtest_name_spec_witness :
    ∃ e, subtest_name "[ab]\n[cd]" = .error e :=
  (subtest_name_spec "[ab]\n[cd]" ["ab", "cd"] (by decide) (by decide)).1
    ⟨"ab", by decide, "cd", by decide, by decide, by decide, by decide⟩

theorem lookupDict_upsert (b : List (String × String)) (kv : String × String)
    (k : String) :
    lookupDict (upsert Prod.fst b kv) k =
      if k = kv.1 then some kv.2 else lookupDict b k := by
  unfold lookupDict
  rw [findKey_upsert]
  by_cases hk : k = kv.1
  · rw [if_pos hk, if_pos hk]
    rfl
  · rw [if_neg hk, if_neg hk]

theorem lookupDict_upsertAll (u : List (String × String)) :
    ∀ (b : List (String × String)) (k : String),
      lookupDict (upsertAll Prod.fst b u) k =
        match lookupLast u k with
        | some v => some v
        | none => lookupDict b k := by
  induction u with
  | nil =>
    intro b k
    rfl
  | cons kv u' ih =>
    intro b k
    have h1 : upsertAll Prod.fst b (kv :: u') =
        upsertAll Prod.fst (upsert Prod.fst b kv) u' := rfl
    rw [h1, ih]
    cases hf : lookupLast u' k with
    | some v => simp only [lookupLast, hf]
    | none =>
      simp only [lookupLast, hf]
      rw [lookupDict_upsert]
      by_cases hk : k = kv.1
      · rw [if_pos hk, if_pos hk.symm]
      · rw [if_neg hk, if_neg (fun hEq => hk hEq.symm)]

theorem lookupDict_mergedDct (d : DocBase) (k : String) :
    lookupDict (mergedDct d) k =
      match lookupLast (get_sub_method_args_dct d) k with
      | some v => some v
      | none =>
        match lookupLast (get_sub_method_dct d) k with
        | some v => some v
        | none => lookupLast (d.sub_str.getD []) k := by
  unfold mergedDct
  rw [lookupDict_upsertAll]
  cases h1 : lookupLast (get_sub_method_args_dct d) k with
  | some v => simp only [h1]
  | none =>
    simp only [h1]
    rw [lookupDict_upsertAll]
    cases h2 : lookupLast (get_sub_method_dct d) k with
    | some v => simp only [h2]
    | none =>
      simp only [h2]
      rw [lookupDict_upsertAll]
      cases h3 : lookupLast (d.sub_str.getD []) k with
      | some v => simp only [h3]
      | none =>
        simp only [h3]
        rfl

/-- C8 counterexample: a format-template key absent from a non-empty
merged mapping does not pass through literally: the `%` substitution
raises a `KeyError`, which `do_sub_str` re-raises augmented with the
offending template, so `__str__` propagates an error. -/
theorem docbase_missing_key_raises :
    docbase_str { fmt := "%(missing)s", sub_str := some [("other", "x")] } =
      .error "KeyError: missing: fmt=%(missing)s" := by
  decide

/-- C8 (amended): the substitution mapping is merged in the order
`sub_str`, then `sub_method`, then `sub_method_args`, later sources
winning on key collisions; the conversion step is the identity by
default and the composed string is stripped of surrounding whitespace.
However, a format-template key absent from the merged mapping passes
through literally only when the merged mapping is empty (no
substitutions configured, in which case the template is used as-is);
with a non-empty merged mapping a missing key is a formatting error,
re-raised augmented with the offending template rather than recovered. -/
theorem docbase_render_contract :
    (∀ (d : DocBase) (k : String),
      lookupDict (mergedDct d) k =
        match lookupLast (get_sub_method_args_dct d) k with
        | some v => some v
        | none =>
          match lookupLast (get_sub_method_dct d) k with
          | some v => some v
          | none => lookupLast (d.sub_str.getD []) k) ∧
    (∀ s : String, conv s = s) ∧
    (∀ d : DocBase, mergedDct d = [] →
      docbase_str d = .ok (String.mk (stripChars d.fmt.data))) ∧
    (∀ (d : DocBase) (out : List Char), mergedDct d ≠ [] →
      pyPercentSub (mergedDct d) d.fmt.data = .ok out →
      docbase_str d = .ok (String.mk (stripChars out))) ∧
    (∀ (d : DocBase) (e : String), mergedDct d ≠ [] →
      pyPercentSub (mergedDct d) d.fmt.data = .error e →
      docbase_str d = .error (e ++ ": fmt=" ++ d.fmt)) := by
  refine ⟨lookupDict_mergedDct, fun s => rfl, ?_, ?_, ?_⟩
  · intro d hd
    unfold docbase_str
    rw [if_pos (by rw [List.isEmpty_iff]; exact hd)]
    rfl
  · intro d out hne hok
    unfold docbase_str
    rw [if_neg (by rw [List.isEmpty_iff]; exact hne)]
    unfold do_sub_str
    rw [hok]
    rfl
  · intro d e hne herr
    unfold docbase_str
    rw [if_neg (by rw [List.isEmpty_iff]; exact hne)]
    unfold do_sub_str
    rw [herr]

theorem docbase_render_contract_witness :
    docbase_str { fmt := " %(a)s ",
                  sub_str := some [("a", "0")],
                  sub_method := some [("a", fun k => k ++ "m")] } =
      .ok (String.mk (stripChars [' ', 'a', 'm', ' '])) :=
  docbase_render_contract.2.2.2.1
    { fmt := " %(a)s ",
      sub_str := some [("a", "0")],
      sub_method := some [("a", fun k => k ++ "m")] }
    [' ', 'a', 'm', ' '] (by decide) (by decide)

/-- C1: Parsing the six-line input `[mytest]` / `#: Explains foo` /
`foo = 1` / `#: Explains bar` / `#: more bar` / `bar=` yields exactly the
two `DocItem` records `(mytest, foo, Explains foo, 1)` and
`(mytest, bar, Explains bar more bar, <None>)` in that order: the empty
value after `=` is normalized to the `<None>` sentinel and the two
consecutive doc-comment lines are space-joined. -/
theorem parse_sixline_example :
    from_string "[mytest]\n#: Explains foo\nfoo = 1\n#: Explains bar\n#: more bar\nbar=" =
      .ok [{ subthing := "mytest", option := "foo", desc := "Explains foo", value := "1" },
           { subthing := "mytest", option := "bar", desc := "Explains bar more bar",
             value := "<None>" }] := by
  decide
